import Mathlib

/-!
# Verification of the kdbush flat KD-tree (`kdbush.go`)

A shallow embedding of `kdbush.go`, a static 2-D spatial index: a flat
KD-tree built by Floyd–Rivest selection (`sselect`) over two in-lockstep
arrays (`Idxs` of original positions, `Coords` of interleaved x/y values),
queried by an explicit-stack box search (`Range`) and radius search
(`Within`).

Modelling conventions:

* Go `float64` coordinate values are modelled as exact rationals `ℚ`.  All
  coordinate operations performed by the code (comparisons, `+`, `-`, `*`)
  are exact on the values the theorems quantify over.
* Go `int` loop variables (`left`, `right`, `m`, `i`, `j`, `k`, axes) are
  modelled as `Int`; they genuinely take negative values (the query stack
  starts with `right = len - 1 = -1` on an empty index).
* `floor(float64(left+right) / 2.0)` is `(left + right) / 2` on `Int`
  (Lean's `Int` division rounds toward `-∞` for a positive divisor, and the
  `float64` arithmetic is exact in the relevant range).
* Go slice accesses panic when out of range; the model returns a default
  value (`getC` / `getN`) or leaves the array unchanged (`swapf` / `swapi`)
  instead.  Every access made under the theorems' preconditions is proved
  in range, so the defaults are never observable there.
* The Floyd–Rivest sampling refinement (lines 192–206 of the source)
  computes a tightened bracket `[newLeft, newRight]` with `math.Log`,
  `math.Exp` and `math.Sqrt`.  Those transcendental float computations are
  not representable exactly; the bracket is therefore a *parameter*
  `br : Int → Int → Int → Int × Int` of the model, and every theorem holds
  for **every** choice of `br` — in particular for whatever values the
  float code produces.  As in the source, the bracket is clamped with
  `iMax`/`iMin`; the model performs the sampling recursion only when the
  clamped bracket is strictly narrower than the current range (with a
  non-shrinking bracket the source call would recurse on an identical
  subproblem and never return, so the model's guard only cuts executions
  on which the source diverges).
* The outer narrowing loop of `sselect` and the recursions of `sort`,
  `Range` and `Within` are modelled by well-founded recursion.  Where the
  source's termination is a theorem rather than a syntactic fact, the model
  continues only while its measure shrinks and otherwise stops, *recording
  the event in a `Bool` flag* (`sselect`) or taking an explicitly
  unreachable branch (the `right ≤ left` guards of `sort`, `rangeLoop`,
  `withinLoop`, which are provably never taken once `NodeSize ≥ -1`).
  The theorem that the flag is `false` / the guards are never hit *is* the
  termination proof for the source loop.
-/

/-- The Go `Point` interface only provides `Coordinates() (X, Y float64)`;
a point is modelled by the coordinate pair it returns. -/
abbrev Point := ℚ × ℚ

/-- The two in-lockstep arrays that `buildIndex` sorts: `Idxs` (original
positions) and `Coords` (interleaved x/y coordinate values). -/
structure Store where
  Idxs : Array Nat
  Coords : Array ℚ
deriving DecidableEq

/-- Read `Coords[i]` with a Go `int` index.  Go panics out of range; the
model returns `0` (all in-range uses are proved in range). -/
def getC (c : Array ℚ) (i : Int) : ℚ :=
  if 0 ≤ i then c.getD i.toNat 0 else 0

/-- Read `Idxs[i]` with a Go `int` index (default `0` out of range). -/
def getN (a : Array Nat) (i : Int) : Nat :=
  if 0 ≤ i then a.getD i.toNat 0 else 0

/-- `func swapf(a []float64, i, j int)`: swap two cells.  Out of range Go
would panic; the model leaves the array unchanged. -/
def swapf (a : Array ℚ) (i j : Int) : Array ℚ :=
  if 0 ≤ i ∧ i < (a.size : Int) ∧ 0 ≤ j ∧ j < (a.size : Int) then
    (a.setD i.toNat (getC a j)).setD j.toNat (getC a i)
  else a

/-- `func swapi(a []int, i, j int)`. -/
def swapi (a : Array Nat) (i j : Int) : Array Nat :=
  if 0 ≤ i ∧ i < (a.size : Int) ∧ 0 ≤ j ∧ j < (a.size : Int) then
    (a.setD i.toNat (getN a j)).setD j.toNat (getN a i)
  else a

/-- `func swapItem(Idxs []int, Coords []float64, i, j int)`: swap position
`i` and `j` of `Idxs` together with both coordinate cells. -/
def swapItem (s : Store) (i j : Int) : Store :=
  { Idxs := swapi s.Idxs i j
    Coords := swapf (swapf s.Coords (2 * i) (2 * j)) (2 * i + 1) (2 * j + 1) }

/-- `func iMax(a, b int) int`. -/
def iMax (a b : Int) : Int := if a > b then a else b

/-- `func iMin(a, b int) int`. -/
def iMin (a b : Int) : Int := if a < b then a else b

/-- `func sqrtDist(ax, ay, bx, by float64) float64`: squared Euclidean
distance. -/
def sqrtDist (ax ay bx byy : ℚ) : ℚ :=
  (ax - bx) * (ax - bx) + (ay - byy) * (ay - byy)

/-- The scan `for Coords[2*i+inc] < t { i += 1 }` inside `sselect`.  The
model stops at the array bounds where Go would panic; under the proved
invariants a stopper `≥ t` is always found in range first. -/
def scanI (c : Array ℚ) (inc : Int) (t : ℚ) (i : Int) : Int :=
  if h : 0 ≤ 2 * i + inc ∧ 2 * i + inc < (c.size : Int) then
    if getC c (2 * i + inc) < t then scanI c inc t (i + 1) else i
  else i
termination_by ((c.size : Int) - (2 * i + inc)).toNat
decreasing_by omega

/-- The scan `for Coords[2*j+inc] > t { j -= 1 }` inside `sselect`. -/
def scanJ (c : Array ℚ) (inc : Int) (t : ℚ) (j : Int) : Int :=
  if h : 0 ≤ 2 * j + inc ∧ 2 * j + inc < (c.size : Int) then
    if getC c (2 * j + inc) > t then scanJ c inc t (j - 1) else j
  else j
termination_by (2 * j + inc + 1).toNat
decreasing_by omega

theorem scanI_ge (c : Array ℚ) (inc : Int) (t : ℚ) (i : Int) : i ≤ scanI c inc t i := by
  induction i using scanI.induct c inc t with
  | case1 i h hlt ih => rw [scanI, dif_pos h, if_pos hlt]; omega
  | case2 i h hlt => rw [scanI, dif_pos h, if_neg hlt]
  | case3 i h => rw [scanI, dif_neg h]

theorem scanJ_le (c : Array ℚ) (inc : Int) (t : ℚ) (j : Int) : scanJ c inc t j ≤ j := by
  induction j using scanJ.induct c inc t with
  | case1 j h hlt ih => rw [scanJ, dif_pos h, if_pos hlt]; omega
  | case2 j h hlt => rw [scanJ, dif_pos h, if_neg hlt]
  | case3 j h => rw [scanJ, dif_neg h]

/-- The two-pointer partition loop `for i < j { ... }` of `sselect`
(lines 217–227 of the source): swap the out-of-order pair, step both
pointers, then run both scans.  Returns the final store and pointers. -/
def partLoop (s : Store) (inc : Int) (t : ℚ) (i j : Int) : Store × Int × Int :=
  if hij : i < j then
    partLoop (swapItem s i j) inc t
      (scanI (swapItem s i j).Coords inc t (i + 1))
      (scanJ (swapItem s i j).Coords inc t (j - 1))
  else (s, i, j)
termination_by (j - i).toNat
decreasing_by
  have h1 := scanI_ge (swapItem s i j).Coords inc t (i + 1)
  have h2 := scanJ_le (swapItem s i j).Coords inc t (j - 1)
  omega

/-- Lines 208–215 of `sselect`: read nothing (the pivot `t` was read from
`s0` by the caller), swap the pivot to `left`, then compare `right`'s value
against `t` and swap it to the front when it is larger. -/
def prePivot (s0 : Store) (t : ℚ) (left k right inc : Int) : Store :=
  let s1 := swapItem s0 left k
  if getC s1.Coords (2 * right + inc) > t then swapItem s1 left right else s1

/-- Lines 229–234 of `sselect`: place the pivot at its resolved position
and return it (`j` after the conditional `j += 1`). -/
def place (s3 : Store) (t : ℚ) (left right j0 inc : Int) : Store × Int :=
  if getC s3.Coords (2 * left + inc) = t then (swapItem s3 left j0, j0)
  else (swapItem s3 (j0 + 1) right, j0 + 1)

/-- `func sselect(Idxs []int, Coords []float64, k, left, right, inc int)`:
Floyd–Rivest selection.  `br` models the float sampling computation of
lines 193–204 (see the module docstring); the returned `Bool` is `true`
iff the model had to stop a narrowing step that did not strictly shrink
`[left, right]` (an event proved impossible under the preconditions —
that proof is the termination argument for the source loop). -/
def sselect (br : Int → Int → Int → Int × Int) (s : Store) (k left right inc : Int) :
    Store × Bool :=
  if hlr : right > left then
    let fr :=
      if right - left > 600 then
        let newLeft := iMax left (br k left right).1
        let newRight := iMin right (br k left right).2
        if hsh : (newRight - newLeft).toNat < (right - left).toNat then
          sselect br s k newLeft newRight inc
        else (s, false)
      else (s, false)
    let t := getC fr.1.Coords (2 * k + inc)
    let pr := partLoop (prePivot fr.1 t left k right inc) inc t left right
    let pj := place pr.1 t left right pr.2.2 inc
    let left' := if pj.2 ≤ k then pj.2 + 1 else left
    let right' := if k ≤ pj.2 then pj.2 - 1 else right
    if hsh2 : (right' - left').toNat < (right - left).toNat then
      let cont := sselect br pj.1 k left' right' inc
      (cont.1, fr.2 || cont.2)
    else (pj.1, true)
  else (s, false)
termination_by (right - left).toNat
decreasing_by all_goals assumption

/-- The Floyd–Rivest sampling step of `sselect` (lines 192–206), as a
standalone function: definitionally the `fr` step of `sselect`'s body. -/
def sselectFR (br : Int → Int → Int → Int × Int) (s : Store) (k left right inc : Int) :
    Store × Bool :=
  if right - left > 600 then
    let newLeft := iMax left (br k left right).1
    let newRight := iMin right (br k left right).2
    if (newRight - newLeft).toNat < (right - left).toNat then
      sselect br s k newLeft newRight inc
    else (s, false)
  else (s, false)

/-- The partition-and-narrow step of `sselect` after the sampling step:
definitionally the rest of `sselect`'s body. -/
def sselectTail (br : Int → Int → Int → Int × Int) (k left right inc : Int)
    (fr : Store × Bool) : Store × Bool :=
  let t := getC fr.1.Coords (2 * k + inc)
  let pr := partLoop (prePivot fr.1 t left k right inc) inc t left right
  let pj := place pr.1 t left right pr.2.2 inc
  let left' := if pj.2 ≤ k then pj.2 + 1 else left
  let right' := if k ≤ pj.2 then pj.2 - 1 else right
  if (right' - left').toNat < (right - left).toNat then
    let cont := sselect br pj.1 k left' right' inc
    (cont.1, fr.2 || cont.2)
  else (pj.1, true)

/-- `func sort(Idxs []int, Coords []float64, nodeSize, left, right, depth int)`:
the recursive builder.  The `right ≤ left` guard is never reached when
`nodeSize ≥ -1`; for `nodeSize ≤ -2` the source recursion never terminates
(see the `nodeSize` theorems), so the model stops there. -/
def sort (br : Int → Int → Int → Int × Int) (s : Store)
    (nodeSize left right depth : Int) : Store :=
  if right - left ≤ nodeSize then s
  else if right ≤ left then s
  else
    sort br
      (sort br (sselect br s ((left + right) / 2) left right (depth % 2)).1
        nodeSize left ((left + right) / 2 - 1) (depth + 1))
      nodeSize ((left + right) / 2 + 1) right (depth + 1)
termination_by (right - left).toNat
decreasing_by all_goals omega

/-- The stopping guard of `sort` (line 176): `(right - left) <= nodeSize`. -/
def sortStops (nodeSize left right : Int) : Prop := right - left ≤ nodeSize

instance (nodeSize left right : Int) : Decidable (sortStops nodeSize left right) := by
  unfold sortStops
  infer_instance

/-- The two recursive calls `sort` makes when its guard does not stop it
(lines 180, 184–185): the child ranges `[left, m−1]` and `[m+1, right]`
with `m = floor((left+right)/2)`. -/
def sortChildren (left right : Int) : List (Int × Int) :=
  [(left, (left + right) / 2 - 1), ((left + right) / 2 + 1, right)]

/-- `type KDBush struct`: node size, the retained points slice, and the two
index arrays. -/
structure KDBush where
  NodeSize : Int
  Points : List Point
  Idxs : Array Nat
  Coords : Array ℚ

/-- The initial `Idxs` array: `Idxs[i] = i`. -/
def initIdxs (points : List Point) : Array Nat := Array.range points.length

/-- The initial `Coords` array: `Coords[2i] = x_i`, `Coords[2i+1] = y_i`
(the extraction loop of `buildIndex`, written as the array it builds). -/
def initCoords (points : List Point) : Array ℚ :=
  Array.ofFn (n := 2 * points.length) fun i =>
    let p := points.getD (i.val / 2) (0, 0)
    if i.val % 2 = 0 then p.1 else p.2

/-- `func (bush *KDBush) buildIndex(points []Point, nodeSize int)`. -/
def buildIndex (br : Int → Int → Int → Int × Int) (points : List Point)
    (nodeSize : Int) : KDBush :=
  let s := sort br ⟨initIdxs points, initCoords points⟩ nodeSize 0
    ((points.length : Int) - 1) 0
  { NodeSize := nodeSize, Points := points, Idxs := s.Idxs, Coords := s.Coords }

/-- `func NewBush(points []Point, nodeSize int) *KDBush`. -/
def NewBush (br : Int → Int → Int → Int × Int) (points : List Point)
    (nodeSize : Int) : KDBush :=
  buildIndex br points nodeSize

/-- The leaf scan of `Range`: `for i := left; i <= right; i++ { ... }`. -/
def rangeScan (b : KDBush) (minX minY maxX maxY : ℚ) (i right : Int) : List Nat :=
  if i ≤ right then
    (if getC b.Coords (2 * i) ≥ minX ∧ getC b.Coords (2 * i) ≤ maxX ∧
        getC b.Coords (2 * i + 1) ≥ minY ∧ getC b.Coords (2 * i + 1) ≤ maxY then
      [getN b.Idxs i]
    else []) ++
      rangeScan b minX minY maxX maxY (i + 1) right
  else []
termination_by (right + 1 - i).toNat
decreasing_by omega

/-- Weight of the explicit work stack, the termination measure of the query
loops. -/
def stackWeight : List (Int × Int × Int) → Nat
  | [] => 0
  | (l, r, _) :: rest => (2 * (r - l + 1).toNat + 1) + stackWeight rest

/-- The `for len(stack) > 0` loop of `Range`.  The Go stack is a flat
`[]int` holding `(left, right, axis)` triples pushed/popped at the end; the
model keeps the triples with the head as the stack top, so the child pushed
second (`[m+1, right]`) is popped first, exactly as in the source.  The
`right ≤ left` guard is unreachable for `NodeSize ≥ -1` (on such a frame Go
would read `Coords` out of range or loop forever, and a built index never
produces one). -/
def rangeLoop (b : KDBush) (minX minY maxX maxY : ℚ)
    (stack : List (Int × Int × Int)) (result : List Nat) : List Nat :=
  match stack with
  | [] => result
  | (left, right, axis) :: rest =>
    if right - left ≤ b.NodeSize then
      rangeLoop b minX minY maxX maxY rest
        (result ++ rangeScan b minX minY maxX maxY left right)
    else if right ≤ left then
      rangeLoop b minX minY maxX maxY rest result
    else
      rangeLoop b minX minY maxX maxY
        (if (axis = 0 ∧ maxX ≥ getC b.Coords (2 * ((left + right) / 2))) ∨
            (axis ≠ 0 ∧ maxY ≥ getC b.Coords (2 * ((left + right) / 2) + 1)) then
          ((left + right) / 2 + 1, right, (axis + 1) % 2) ::
            (if (axis = 0 ∧ minX ≤ getC b.Coords (2 * ((left + right) / 2))) ∨
                (axis ≠ 0 ∧ minY ≤ getC b.Coords (2 * ((left + right) / 2) + 1)) then
              (left, (left + right) / 2 - 1, (axis + 1) % 2) :: rest
            else rest)
        else
          (if (axis = 0 ∧ minX ≤ getC b.Coords (2 * ((left + right) / 2))) ∨
              (axis ≠ 0 ∧ minY ≤ getC b.Coords (2 * ((left + right) / 2) + 1)) then
            (left, (left + right) / 2 - 1, (axis + 1) % 2) :: rest
          else rest))
        (if getC b.Coords (2 * ((left + right) / 2)) ≥ minX ∧
            getC b.Coords (2 * ((left + right) / 2)) ≤ maxX ∧
            getC b.Coords (2 * ((left + right) / 2) + 1) ≥ minY ∧
            getC b.Coords (2 * ((left + right) / 2) + 1) ≤ maxY then
          result ++ [getN b.Idxs ((left + right) / 2)]
        else result)
termination_by stackWeight stack
decreasing_by
  all_goals first
    | (simp only [stackWeight]; omega)
    | (simp only [stackWeight]; split <;> split <;> (try simp only [stackWeight]) <;> omega)

/-- `func (bush *KDBush) Range(minX, minY, maxX, maxY float64) []int`. -/
def KDBush.Range (b : KDBush) (minX minY maxX maxY : ℚ) : List Nat :=
  rangeLoop b minX minY maxX maxY [(0, (b.Idxs.size : Int) - 1, 0)] []

/-- The leaf scan of `Within`. -/
def withinScan (b : KDBush) (qx qy r2 : ℚ) (i right : Int) : List Nat :=
  if i ≤ right then
    (if sqrtDist (getC b.Coords (2 * i)) (getC b.Coords (2 * i + 1)) qx qy ≤ r2 then
        [getN b.Idxs i]
      else []) ++
      withinScan b qx qy r2 (i + 1) right
  else []
termination_by (right + 1 - i).toNat
decreasing_by omega

/-- The `for len(stack) > 0` loop of `Within` (same stack discipline as
`rangeLoop`). -/
def withinLoop (b : KDBush) (qx qy radius r2 : ℚ)
    (stack : List (Int × Int × Int)) (result : List Nat) : List Nat :=
  match stack with
  | [] => result
  | (left, right, axis) :: rest =>
    if right - left ≤ b.NodeSize then
      withinLoop b qx qy radius r2 rest (result ++ withinScan b qx qy r2 left right)
    else if right ≤ left then
      withinLoop b qx qy radius r2 rest result
    else
      withinLoop b qx qy radius r2
        (if (axis = 0 ∧ qx + radius ≥ getC b.Coords (2 * ((left + right) / 2))) ∨
            (axis ≠ 0 ∧ qy + radius ≥ getC b.Coords (2 * ((left + right) / 2) + 1)) then
          ((left + right) / 2 + 1, right, (axis + 1) % 2) ::
            (if (axis = 0 ∧ qx - radius ≤ getC b.Coords (2 * ((left + right) / 2))) ∨
                (axis ≠ 0 ∧ qy - radius ≤ getC b.Coords (2 * ((left + right) / 2) + 1)) then
              (left, (left + right) / 2 - 1, (axis + 1) % 2) :: rest
            else rest)
        else
          (if (axis = 0 ∧ qx - radius ≤ getC b.Coords (2 * ((left + right) / 2))) ∨
              (axis ≠ 0 ∧ qy - radius ≤ getC b.Coords (2 * ((left + right) / 2) + 1)) then
            (left, (left + right) / 2 - 1, (axis + 1) % 2) :: rest
          else rest))
        (if sqrtDist (getC b.Coords (2 * ((left + right) / 2)))
            (getC b.Coords (2 * ((left + right) / 2) + 1)) qx qy ≤ r2 then
          result ++ [getN b.Idxs ((left + right) / 2)]
        else result)
termination_by stackWeight stack
decreasing_by
  all_goals first
    | (simp only [stackWeight]; omega)
    | (simp only [stackWeight]; split <;> split <;> (try simp only [stackWeight]) <;> omega)

/-- `func (bush *KDBush) Within(point Point, radius float64) []int`. -/
def KDBush.Within (b : KDBush) (point : Point) (radius : ℚ) : List Nat :=
  withinLoop b point.1 point.2 radius (radius * radius)
    [(0, (b.Idxs.size : Int) - 1, 0)] []

/-! ## Specification-side definitions -/

/-- Brute-force box query on the original points: all original indices `i`
with `minX ≤ x_i ≤ maxX` and `minY ≤ y_i ≤ maxY` (inclusive). -/
def bruteRange (points : List Point) (minX minY maxX maxY : ℚ) : List Nat :=
  (List.range points.length).filter fun i =>
    let p := points.getD i (0, 0)
    decide (minX ≤ p.1 ∧ p.1 ≤ maxX ∧ minY ≤ p.2 ∧ p.2 ≤ maxY)

/-- Brute-force radius query on the original points: all original indices
`i` with `(x_i − qx)² + (y_i − qy)² ≤ radius²` (inclusive). -/
def bruteWithin (points : List Point) (qx qy radius : ℚ) : List Nat :=
  (List.range points.length).filter fun i =>
    let p := points.getD i (0, 0)
    decide (sqrtDist p.1 p.2 qx qy ≤ radius * radius)

/-- The list of `Int` positions `left, left+1, …, right` (empty when
`right < left`): the index set of a range of the flat tree. -/
def posList (left right : Int) : List Int :=
  if left ≤ right then left :: posList (left + 1) right else []
termination_by (right + 1 - left).toNat
decreasing_by omega

/-- The k-d partial-order invariant of the built arrays (recursively over
ranges, axis flipping per level): ranges of length `≤ nodeSize` are
unordered leaves; otherwise everything left of `m = ⌊(left+right)/2⌋` is
`≤` the axis value at `m` and everything right of `m` is `≥` it, and both
halves satisfy the invariant on the flipped axis. -/
def kdOrdered (s : Store) (nodeSize left right axis : Int) : Bool :=
  if right - left ≤ nodeSize then true
  else if right ≤ left then true
  else
    ((posList left ((left + right) / 2 - 1)).all fun p =>
        decide (getC s.Coords (2 * p + axis) ≤
          getC s.Coords (2 * ((left + right) / 2) + axis))) &&
    ((posList ((left + right) / 2 + 1) right).all fun p =>
        decide (getC s.Coords (2 * ((left + right) / 2) + axis) ≤
          getC s.Coords (2 * p + axis))) &&
    kdOrdered s nodeSize left ((left + right) / 2 - 1) ((axis + 1) % 2) &&
    kdOrdered s nodeSize ((left + right) / 2 + 1) right ((axis + 1) % 2)
termination_by (right - left).toNat
decreasing_by all_goals omega

/-- A trivial concrete instance of the sampling-bracket parameter, used by
the closed witness evaluations (for ranges ≤ 600 elements the bracket is
never consulted). -/
def brTriv : Int → Int → Int → Int × Int := fun _ l r => (l, r)

/-! ## Basic facts about the in-lockstep arrays -/

/-- Lockstep well-formedness: `Coords` holds exactly two cells per `Idxs`
entry. -/
def WFS (s : Store) : Prop := s.Coords.size = 2 * s.Idxs.size

/-- The logical record stored at position `p`: the original index together
with its two coordinates. -/
def entryAt (s : Store) (p : Int) : Nat × ℚ × ℚ :=
  (getN s.Idxs p, getC s.Coords (2 * p), getC s.Coords (2 * p + 1))

/-- All records of the store, in positional order. -/
def entriesList (s : Store) : List (Nat × ℚ × ℚ) :=
  (List.range s.Idxs.size).map fun p : Nat => entryAt s (p : Int)

theorem arr_getD_setD_self {α} (a : Array α) (i : Nat) (v d : α) (h : i < a.size) :
    (a.setD i v).getD i d = v := by
  unfold Array.setD Array.getD
  rw [dif_pos h]
  simp [h]

theorem arr_getD_setD_ne {α} (a : Array α) (i j : Nat) (v d : α) (hne : i ≠ j) :
    (a.setD i v).getD j d = a.getD j d := by
  unfold Array.setD Array.getD
  by_cases hi : i < a.size
  · rw [dif_pos hi]
    by_cases hj : j < a.size
    · rw [dif_pos (by simpa using hj), dif_pos hj]
      exact Array.get_set_ne a ⟨i, hi⟩ v hj hne
    · rw [dif_neg (by simpa using hj), dif_neg hj]
  · rw [dif_neg hi]

theorem arr_setD_size {α} (a : Array α) (i : Nat) (v : α) : (a.setD i v).size = a.size := by
  unfold Array.setD; split <;> simp

theorem swapf_size (a : Array ℚ) (i j : Int) : (swapf a i j).size = a.size := by
  unfold swapf; split <;> simp [arr_setD_size]

theorem swapi_size (a : Array Nat) (i j : Int) : (swapi a i j).size = a.size := by
  unfold swapi; split <;> simp [arr_setD_size]

theorem swapItem_sizes (s : Store) (i j : Int) :
    (swapItem s i j).Idxs.size = s.Idxs.size ∧
      (swapItem s i j).Coords.size = s.Coords.size := by
  unfold swapItem
  exact ⟨swapi_size _ _ _, by rw [swapf_size, swapf_size]⟩

theorem WFS_swapItem (s : Store) (i j : Int) (h : WFS s) : WFS (swapItem s i j) := by
  unfold WFS at *
  rw [(swapItem_sizes s i j).1, (swapItem_sizes s i j).2, h]

theorem getC_swapf (a : Array ℚ) (i j p : Int)
    (hi : 0 ≤ i ∧ i < (a.size : Int)) (hj : 0 ≤ j ∧ j < (a.size : Int)) :
    getC (swapf a i j) p =
      if p = i then getC a j else if p = j then getC a i else getC a p := by
  unfold swapf
  rw [if_pos ⟨hi.1, hi.2, hj.1, hj.2⟩]
  unfold getC
  by_cases hp : 0 ≤ p
  · simp only [hp, if_true]
    by_cases hpj : p = j
    · subst hpj
      rw [arr_getD_setD_self _ _ _ _ (by rw [arr_setD_size]; omega)]
      by_cases hpi : p = i
      · subst hpi; simp
      · simp [hpi]
    · rw [arr_getD_setD_ne _ _ _ _ _ (by omega)]
      by_cases hpi : p = i
      · subst hpi
        rw [if_pos rfl, arr_getD_setD_self _ _ _ _ (by omega)]
      · rw [arr_getD_setD_ne _ _ _ _ _ (by omega), if_neg hpi, if_neg hpj]
  · have hpi : ¬(p = i) := by omega
    have hpj : ¬(p = j) := by omega
    simp [hp, hpi, hpj]

theorem getN_swapi (a : Array Nat) (i j p : Int)
    (hi : 0 ≤ i ∧ i < (a.size : Int)) (hj : 0 ≤ j ∧ j < (a.size : Int)) :
    getN (swapi a i j) p =
      if p = i then getN a j else if p = j then getN a i else getN a p := by
  unfold swapi
  rw [if_pos ⟨hi.1, hi.2, hj.1, hj.2⟩]
  unfold getN
  by_cases hp : 0 ≤ p
  · simp only [hp, if_true]
    by_cases hpj : p = j
    · subst hpj
      rw [arr_getD_setD_self _ _ _ _ (by rw [arr_setD_size]; omega)]
      by_cases hpi : p = i
      · subst hpi; simp
      · simp [hpi]
    · rw [arr_getD_setD_ne _ _ _ _ _ (by omega)]
      by_cases hpi : p = i
      · subst hpi
        rw [if_pos rfl, arr_getD_setD_self _ _ _ _ (by omega)]
      · rw [arr_getD_setD_ne _ _ _ _ _ (by omega), if_neg hpi, if_neg hpj]
  · have hpi : ¬(p = i) := by omega
    have hpj : ¬(p = j) := by omega
    simp [hp, hpi, hpj]

theorem getN_swapItem (s : Store) (i j p : Int)
    (hi : 0 ≤ i ∧ i < (s.Idxs.size : Int)) (hj : 0 ≤ j ∧ j < (s.Idxs.size : Int)) :
    getN (swapItem s i j).Idxs p =
      if p = i then getN s.Idxs j else if p = j then getN s.Idxs i else getN s.Idxs p := by
  show getN (swapi s.Idxs i j) p = _
  exact getN_swapi s.Idxs i j p hi hj

theorem getCeven_swapItem (s : Store) (i j p : Int) (hWF : WFS s)
    (hi : 0 ≤ i ∧ i < (s.Idxs.size : Int)) (hj : 0 ≤ j ∧ j < (s.Idxs.size : Int)) :
    getC (swapItem s i j).Coords (2 * p) =
      if p = i then getC s.Coords (2 * j)
      else if p = j then getC s.Coords (2 * i)
      else getC s.Coords (2 * p) := by
  have hc : s.Coords.size = 2 * s.Idxs.size := hWF
  have hsz : (swapf s.Coords (2 * i) (2 * j)).size = s.Coords.size := swapf_size _ _ _
  show getC (swapf (swapf s.Coords (2 * i) (2 * j)) (2 * i + 1) (2 * j + 1)) (2 * p) = _
  rw [getC_swapf (swapf s.Coords (2 * i) (2 * j)) (2 * i + 1) (2 * j + 1) (2 * p)
    (by rw [hsz]; push_cast [hc]; omega) (by rw [hsz]; push_cast [hc]; omega)]
  rw [if_neg (show ¬((2 : Int) * p = 2 * i + 1) by omega),
    if_neg (show ¬((2 : Int) * p = 2 * j + 1) by omega)]
  rw [getC_swapf s.Coords (2 * i) (2 * j) (2 * p)
    (by push_cast [hc]; omega) (by push_cast [hc]; omega)]
  by_cases hpi : p = i
  · subst hpi
    rw [if_pos rfl, if_pos rfl]
  · rw [if_neg (show ¬((2 : Int) * p = 2 * i) by omega), if_neg hpi]
    by_cases hpj : p = j
    · subst hpj
      rw [if_pos rfl, if_pos rfl]
    · rw [if_neg (show ¬((2 : Int) * p = 2 * j) by omega), if_neg hpj]

theorem getCodd_swapItem (s : Store) (i j p : Int) (hWF : WFS s)
    (hi : 0 ≤ i ∧ i < (s.Idxs.size : Int)) (hj : 0 ≤ j ∧ j < (s.Idxs.size : Int)) :
    getC (swapItem s i j).Coords (2 * p + 1) =
      if p = i then getC s.Coords (2 * j + 1)
      else if p = j then getC s.Coords (2 * i + 1)
      else getC s.Coords (2 * p + 1) := by
  have hc : s.Coords.size = 2 * s.Idxs.size := hWF
  have hsz : (swapf s.Coords (2 * i) (2 * j)).size = s.Coords.size := swapf_size _ _ _
  show getC (swapf (swapf s.Coords (2 * i) (2 * j)) (2 * i + 1) (2 * j + 1)) (2 * p + 1) = _
  rw [getC_swapf (swapf s.Coords (2 * i) (2 * j)) (2 * i + 1) (2 * j + 1) (2 * p + 1)
    (by rw [hsz]; push_cast [hc]; omega) (by rw [hsz]; push_cast [hc]; omega)]
  by_cases hpi : p = i
  · subst hpi
    rw [if_pos rfl, if_pos rfl]
    rw [getC_swapf s.Coords (2 * p) (2 * j) (2 * j + 1)
      (by push_cast [hc]; omega) (by push_cast [hc]; omega)]
    rw [if_neg (show ¬((2 : Int) * j + 1 = 2 * p) by omega),
      if_neg (show ¬((2 : Int) * j + 1 = 2 * j) by omega)]
  · rw [if_neg (show ¬((2 : Int) * p + 1 = 2 * i + 1) by omega), if_neg hpi]
    by_cases hpj : p = j
    · subst hpj
      rw [if_pos rfl, if_pos rfl]
      rw [getC_swapf s.Coords (2 * i) (2 * p) (2 * i + 1)
        (by push_cast [hc]; omega) (by push_cast [hc]; omega)]
      rw [if_neg (show ¬((2 : Int) * i + 1 = 2 * i) by omega),
        if_neg (show ¬((2 : Int) * i + 1 = 2 * p) by omega)]
    · rw [if_neg (show ¬((2 : Int) * p + 1 = 2 * j + 1) by omega), if_neg hpj]
      rw [getC_swapf s.Coords (2 * i) (2 * j) (2 * p + 1)
        (by push_cast [hc]; omega) (by push_cast [hc]; omega)]
      rw [if_neg (show ¬((2 : Int) * p + 1 = 2 * i) by omega),
        if_neg (show ¬((2 : Int) * p + 1 = 2 * j) by omega)]

theorem entryAt_swapItem (s : Store) (i j p : Int) (hWF : WFS s)
    (hi : 0 ≤ i ∧ i < (s.Idxs.size : Int)) (hj : 0 ≤ j ∧ j < (s.Idxs.size : Int)) :
    entryAt (swapItem s i j) p =
      if p = i then entryAt s j else if p = j then entryAt s i else entryAt s p := by
  unfold entryAt
  rw [getN_swapItem s i j p hi hj, getCeven_swapItem s i j p hWF hi hj,
    getCodd_swapItem s i j p hWF hi hj]
  by_cases hpi : p = i <;> by_cases hpj : p = j <;> by_cases hij : i = j <;>
    first
      | (exfalso; omega)
      | (simp [hpi, hpj, hij]; done)
      | (simp only [hpi, hpj, hij]; split <;> first | rfl | (exfalso; omega))

/-! ## Permutation machinery for lockstep swaps -/

theorem transpose_perm {α} (pre mid post : List α) (a b : α) :
    (pre ++ (a :: (mid ++ b :: post))).Perm (pre ++ (b :: (mid ++ a :: post))) := by
  apply List.Perm.append_left
  have h1 : (a :: (mid ++ b :: post)).Perm (a :: (b :: (mid ++ post))) :=
    List.Perm.cons a List.perm_middle
  have h2 : (a :: (b :: (mid ++ post))).Perm (b :: (a :: (mid ++ post))) :=
    List.Perm.swap b a _
  have h3 : (b :: (a :: (mid ++ post))).Perm (b :: (mid ++ a :: post)) :=
    List.Perm.cons b List.perm_middle.symm
  exact (h1.trans h2).trans h3

theorem range_split3 (i j n : Nat) (h1 : i < j) (h2 : j < n) :
    List.range n =
      List.range' 0 i ++ (i :: (List.range' (i + 1) (j - i - 1) ++ j :: List.range' (j + 1) (n - j - 1))) := by
  have e2 : List.range' i (n - i) = i :: List.range' (i + 1) (n - i - 1) := by
    conv_lhs => rw [show n - i = (n - i - 1) + 1 by omega, List.range'_succ]
  have e4 : List.range' j (n - j) = j :: List.range' (j + 1) (n - j - 1) := by
    conv_lhs => rw [show n - j = (n - j - 1) + 1 by omega, List.range'_succ]
  have e3 : List.range' (i + 1) (j - i - 1) ++ List.range' j (n - j) =
      List.range' (i + 1) (n - i - 1) := by
    have := List.range'_append_1 (i + 1) (j - i - 1) (n - j)
    rw [show i + 1 + (j - i - 1) = j by omega] at this
    rw [this]
    congr 1
    omega
  have e1 : List.range' 0 i ++ List.range' i (n - i) = List.range' 0 n := by
    have h := List.range'_append_1 0 i (n - i)
    rw [Nat.zero_add] at h
    rw [h]
    congr 1
    omega
  rw [List.range_eq_range', ← e1, e2]
  congr 1
  rw [← e3, e4]

theorem map_transpose_perm {α} (f g : Nat → α) (n i j : Nat) (hij : i < j) (hj : j < n)
    (hgi : g i = f j) (hgj : g j = f i) (hother : ∀ p, p ≠ i → p ≠ j → g p = f p) :
    ((List.range n).map g).Perm ((List.range n).map f) := by
  rw [range_split3 i j n hij hj]
  simp only [List.map_append, List.map_cons]
  rw [hgi, hgj]
  have hpre : (List.range' 0 i).map g = (List.range' 0 i).map f := by
    apply List.map_eq_map_iff.mpr
    intro x hx
    rw [List.mem_range'_1] at hx
    exact hother x (by omega) (by omega)
  have hmid : (List.range' (i + 1) (j - i - 1)).map g = (List.range' (i + 1) (j - i - 1)).map f := by
    apply List.map_eq_map_iff.mpr
    intro x hx
    rw [List.mem_range'_1] at hx
    exact hother x (by omega) (by omega)
  have hpost : (List.range' (j + 1) (n - j - 1)).map g = (List.range' (j + 1) (n - j - 1)).map f := by
    apply List.map_eq_map_iff.mpr
    intro x hx
    rw [List.mem_range'_1] at hx
    exact hother x (by omega) (by omega)
  rw [hpre, hmid, hpost]
  exact transpose_perm _ _ _ (f j) (f i)

theorem entriesList_swapItem_perm (s : Store) (i j : Int) (hWF : WFS s)
    (hi : 0 ≤ i ∧ i < (s.Idxs.size : Int)) (hj : 0 ≤ j ∧ j < (s.Idxs.size : Int)) :
    (entriesList (swapItem s i j)).Perm (entriesList s) := by
  unfold entriesList
  rw [(swapItem_sizes s i j).1]
  rcases lt_trichotomy i j with hlt | heq | hgt
  · apply map_transpose_perm (fun p : Nat => entryAt s (p : Int))
      (fun p : Nat => entryAt (swapItem s i j) (p : Int)) s.Idxs.size i.toNat j.toNat
      (by omega) (by omega)
    · show entryAt (swapItem s i j) ((i.toNat : Nat) : Int) = entryAt s ((j.toNat : Nat) : Int)
      rw [show ((i.toNat : Nat) : Int) = i by omega, show ((j.toNat : Nat) : Int) = j by omega,
        entryAt_swapItem s i j i hWF hi hj, if_pos rfl]
    · show entryAt (swapItem s i j) ((j.toNat : Nat) : Int) = entryAt s ((i.toNat : Nat) : Int)
      rw [show ((j.toNat : Nat) : Int) = j by omega, show ((i.toNat : Nat) : Int) = i by omega,
        entryAt_swapItem s i j j hWF hi hj, if_neg (by omega), if_pos rfl]
    · intro p hpi hpj
      show entryAt (swapItem s i j) ((p : Nat) : Int) = entryAt s ((p : Nat) : Int)
      rw [entryAt_swapItem s i j p hWF hi hj, if_neg (by omega), if_neg (by omega)]
  · subst heq
    apply List.Perm.of_eq
    apply List.map_eq_map_iff.mpr
    intro p _
    show entryAt (swapItem s i i) ((p : Nat) : Int) = entryAt s ((p : Nat) : Int)
    rw [entryAt_swapItem s i i p hWF hi hi]
    by_cases hpi : (p : Int) = i
    · rw [if_pos hpi, hpi]
    · rw [if_neg hpi, if_neg hpi]
  · apply map_transpose_perm (fun p : Nat => entryAt s (p : Int))
      (fun p : Nat => entryAt (swapItem s i j) (p : Int)) s.Idxs.size j.toNat i.toNat
      (by omega) (by omega)
    · show entryAt (swapItem s i j) ((j.toNat : Nat) : Int) = entryAt s ((i.toNat : Nat) : Int)
      rw [show ((j.toNat : Nat) : Int) = j by omega, show ((i.toNat : Nat) : Int) = i by omega,
        entryAt_swapItem s i j j hWF hi hj, if_neg (by omega), if_pos rfl]
    · show entryAt (swapItem s i j) ((i.toNat : Nat) : Int) = entryAt s ((j.toNat : Nat) : Int)
      rw [show ((i.toNat : Nat) : Int) = i by omega, show ((j.toNat : Nat) : Int) = j by omega,
        entryAt_swapItem s i j i hWF hi hj, if_pos rfl]
    · intro p hpj hpi
      show entryAt (swapItem s i j) ((p : Nat) : Int) = entryAt s ((p : Nat) : Int)
      rw [entryAt_swapItem s i j p hWF hi hj, if_neg (by omega), if_neg (by omega)]

theorem entriesList_length (s : Store) : (entriesList s).length = s.Idxs.size := by
  simp [entriesList]

theorem entriesList_getElem (s : Store) (p : Nat) (h : p < (entriesList s).length) :
    (entriesList s)[p] = entryAt s (p : Int) := by
  unfold entriesList
  rw [List.getElem_map, List.getElem_range]

/-- Segment transfer: if two stores have permuted record lists and agree
pointwise outside `[l, r]`, then every record inside `[l, r]` of the first
appears somewhere inside `[l, r]` of the second. -/
theorem seg_transfer (s s' : Store) (l r : Int)
    (hn : s'.Idxs.size = s.Idxs.size)
    (hperm : (entriesList s').Perm (entriesList s))
    (hframe : ∀ p : Int, 0 ≤ p → p < (s.Idxs.size : Int) → (p < l ∨ r < p) →
      entryAt s' p = entryAt s p) :
    ∀ p : Int, l ≤ p → p ≤ r → 0 ≤ p → p < (s.Idxs.size : Int) →
      ∃ q : Int, l ≤ q ∧ q ≤ r ∧ 0 ≤ q ∧ q < (s.Idxs.size : Int) ∧
        entryAt s' p = entryAt s q := by
  intro p hlp hpr hp0 hpn
  set n := s.Idxs.size with hdefn
  set Ln : Nat := l.toNat with hdefLn
  set Rn : Nat := min (r + 1).toNat n with hdefRn
  have hLn_le : Ln ≤ p.toNat := by omega
  have hlt_Rn : p.toNat < Rn := by omega
  have hRn_le : Rn ≤ n := by omega
  have len' : (entriesList s').length = n := by rw [entriesList_length, hn]
  have len : (entriesList s).length = n := entriesList_length s
  -- the three-way decompositions
  have dec3 : ∀ L : List (Nat × ℚ × ℚ),
      L = L.take Ln ++ ((L.drop Ln).take (Rn - Ln) ++ L.drop Rn) := by
    intro L
    have h1 := List.take_append_drop Ln L
    have h2 := List.take_append_drop (Rn - Ln) (L.drop Ln)
    rw [List.drop_drop, show Ln + (Rn - Ln) = Rn by omega] at h2
    rw [← h2] at h1
    exact h1.symm
  have dec' := dec3 (entriesList s')
  have dec := dec3 (entriesList s)
  -- ends agree pointwise
  have htake : (entriesList s').take Ln = (entriesList s).take Ln := by
    apply List.ext_getElem
    · rw [List.length_take, List.length_take, len, len']
    · intro q h1 h2
      rw [List.getElem_take, List.getElem_take]
      have hq : q < n := by rw [List.length_take, len'] at h1; omega
      rw [entriesList_getElem _ _ (by omega), entriesList_getElem _ _ (by omega)]
      apply hframe
      · omega
      · omega
      · left
        rw [List.length_take, len'] at h1
        omega
  have hdrop : (entriesList s').drop Rn = (entriesList s).drop Rn := by
    apply List.ext_getElem
    · rw [List.length_drop, List.length_drop, len, len']
    · intro q h1 h2
      rw [List.getElem_drop, List.getElem_drop]
      have hq : Rn + q < n := by rw [List.length_drop, len'] at h1; omega
      rw [entriesList_getElem _ _ (by omega), entriesList_getElem _ _ (by omega)]
      apply hframe
      · omega
      · omega
      · right
        omega
  -- cancel to get the middle permutation
  have hmidperm : (((entriesList s').drop Ln).take (Rn - Ln)).Perm
      (((entriesList s).drop Ln).take (Rn - Ln)) := by
    have h1 : ((entriesList s').take Ln ++ (((entriesList s').drop Ln).take (Rn - Ln) ++
        (entriesList s').drop Rn)).Perm
        ((entriesList s).take Ln ++ (((entriesList s).drop Ln).take (Rn - Ln) ++
        (entriesList s).drop Rn)) := by
      rw [← dec', ← dec]; exact hperm
    rw [htake, hdrop] at h1
    have h2 := (List.perm_append_left_iff _).mp h1
    have h3 : ∀ (u v w : List (Nat × ℚ × ℚ)), (u ++ w).Perm (v ++ w) → u.Perm v := by
      intro u v w huvw
      have hm : (↑(u ++ w) : Multiset (Nat × ℚ × ℚ)) = ↑(v ++ w) := by
        exact Multiset.coe_eq_coe.2 huvw
      simp only [← Multiset.coe_add] at hm
      exact Multiset.coe_eq_coe.1 (add_right_cancel hm)
    exact h3 _ _ _ h2
  -- membership of p's record in the middle segment
  have hmem : entryAt s' p ∈ ((entriesList s').drop Ln).take (Rn - Ln) := by
    have hidx : p.toNat - Ln < Rn - Ln := by omega
    have hlen : p.toNat - Ln < (((entriesList s').drop Ln).take (Rn - Ln)).length := by
      rw [List.length_take, List.length_drop, len']
      omega
    have : (((entriesList s').drop Ln).take (Rn - Ln))[p.toNat - Ln] = entryAt s' p := by
      rw [List.getElem_take, List.getElem_drop]
      rw [entriesList_getElem _ _ (by rw [len']; omega)]
      congr 1
      omega
    rw [← this]
    exact List.getElem_mem _
  have hmem2 : entryAt s' p ∈ ((entriesList s).drop Ln).take (Rn - Ln) :=
    hmidperm.mem_iff.mp hmem
  rcases List.mem_iff_getElem.mp hmem2 with ⟨idx, hidx, hval⟩
  refine ⟨(Ln + idx : Nat), ?_, ?_, by omega, ?_, ?_⟩
  · rw [List.length_take, List.length_drop, len] at hidx
    omega
  · rw [List.length_take, List.length_drop, len] at hidx
    omega
  · rw [List.length_take, List.length_drop, len] at hidx
    omega
  · rw [List.getElem_take, List.getElem_drop] at hval
    rw [entriesList_getElem _ _ (by
      rw [List.length_take, List.length_drop, len] at hidx
      rw [len]; omega)] at hval
    exact hval.symm

/-! ## Specification of the partition scans -/

theorem scanI_spec (c : Array ℚ) (inc : Int) (t : ℚ) (bound : Int)
    (hbn : 2 * bound + inc < (c.size : Int))
    (hstop : ¬ getC c (2 * bound + inc) < t) :
    ∀ start : Int, start ≤ bound → 0 ≤ 2 * start + inc →
      start ≤ scanI c inc t start ∧ scanI c inc t start ≤ bound ∧
        ¬ getC c (2 * scanI c inc t start + inc) < t ∧
        ∀ p, start ≤ p → p < scanI c inc t start → getC c (2 * p + inc) < t := by
  have main : ∀ N : Nat, ∀ start : Int, (bound - start).toNat ≤ N → start ≤ bound →
      0 ≤ 2 * start + inc →
      start ≤ scanI c inc t start ∧ scanI c inc t start ≤ bound ∧
        ¬ getC c (2 * scanI c inc t start + inc) < t ∧
        ∀ p, start ≤ p → p < scanI c inc t start → getC c (2 * p + inc) < t := by
    intro N
    induction N with
    | zero =>
      intro start hm hsb h0
      have hse : start = bound := by omega
      subst hse
      rw [scanI, dif_pos ⟨h0, hbn⟩, if_neg hstop]
      exact ⟨le_refl _, le_refl _, hstop, fun p h1 h2 => absurd h2 (by omega)⟩
    | succ N ih =>
      intro start hm hsb h0
      by_cases hlt : getC c (2 * start + inc) < t
      · have hne : start ≠ bound := fun h => hstop (h ▸ hlt)
        have hsb' : start + 1 ≤ bound := by omega
        have hrec := ih (start + 1) (by omega) hsb' (by omega)
        rw [scanI, dif_pos ⟨h0, by omega⟩, if_pos hlt]
        refine ⟨by omega, hrec.2.1, hrec.2.2.1, ?_⟩
        intro p h1 h2
        rcases eq_or_lt_of_le h1 with h1' | h1'
        · rw [← h1']; exact hlt
        · exact hrec.2.2.2 p (by omega) h2
      · rw [scanI, dif_pos ⟨h0, by omega⟩, if_neg hlt]
        exact ⟨le_refl _, hsb, hlt, fun p h1 h2 => absurd h2 (by omega)⟩
  intro start hsb h0
  exact main (bound - start).toNat start (le_refl _) hsb h0

theorem scanJ_spec (c : Array ℚ) (inc : Int) (t : ℚ) (bound : Int)
    (h0 : 0 ≤ 2 * bound + inc)
    (hstop : ¬ getC c (2 * bound + inc) > t) :
    ∀ start : Int, bound ≤ start → 2 * start + inc < (c.size : Int) →
      scanJ c inc t start ≤ start ∧ bound ≤ scanJ c inc t start ∧
        ¬ getC c (2 * scanJ c inc t start + inc) > t ∧
        ∀ p, scanJ c inc t start < p → p ≤ start → getC c (2 * p + inc) > t := by
  have main : ∀ N : Nat, ∀ start : Int, (start - bound).toNat ≤ N → bound ≤ start →
      2 * start + inc < (c.size : Int) →
      scanJ c inc t start ≤ start ∧ bound ≤ scanJ c inc t start ∧
        ¬ getC c (2 * scanJ c inc t start + inc) > t ∧
        ∀ p, scanJ c inc t start < p → p ≤ start → getC c (2 * p + inc) > t := by
    intro N
    induction N with
    | zero =>
      intro start hm hbs hsn
      have hse : start = bound := by omega
      subst hse
      rw [scanJ, dif_pos ⟨h0, hsn⟩, if_neg hstop]
      exact ⟨le_refl _, le_refl _, hstop, fun p h1 h2 => absurd h1 (by omega)⟩
    | succ N ih =>
      intro start hm hbs hsn
      by_cases hgt : getC c (2 * start + inc) > t
      · have hne : start ≠ bound := fun h => hstop (h ▸ hgt)
        have hbs' : bound ≤ start - 1 := by omega
        have hrec := ih (start - 1) (by omega) hbs' (by omega)
        rw [scanJ, dif_pos ⟨by omega, hsn⟩, if_pos hgt]
        refine ⟨by omega, hrec.2.1, hrec.2.2.1, ?_⟩
        intro p h1 h2
        rcases eq_or_lt_of_le h2 with h2' | h2'
        · rw [h2']; exact hgt
        · exact hrec.2.2.2 p h1 (by omega)
      · rw [scanJ, dif_pos ⟨by omega, hsn⟩, if_neg hgt]
        exact ⟨le_refl _, hbs, hgt, fun p h1 h2 => absurd h1 (by omega)⟩
  intro start hbs hsn
  exact main (start - bound).toNat start (le_refl _) hbs hsn

/-- Coordinate view of `entryAt_swapItem` along axis `inc ∈ {0, 1}`. -/
theorem getCv_swapItem (s : Store) (i j p inc : Int) (hWF : WFS s)
    (hinc : inc = 0 ∨ inc = 1)
    (hi : 0 ≤ i ∧ i < (s.Idxs.size : Int)) (hj : 0 ≤ j ∧ j < (s.Idxs.size : Int)) :
    getC (swapItem s i j).Coords (2 * p + inc) =
      if p = i then getC s.Coords (2 * j + inc)
      else if p = j then getC s.Coords (2 * i + inc)
      else getC s.Coords (2 * p + inc) := by
  rcases hinc with h | h <;> subst h
  · simpa using getCeven_swapItem s i j p hWF hi hj
  · exact getCodd_swapItem s i j p hWF hi hj

/-- Full specification of the two-pointer partition loop: starting from a
state whose prefix `[left, i)` is `≤ t`, whose suffix `(j, right]` is `≥ t`,
and whose current pointers carry the scan stop conditions, the loop
terminates with crossed pointers, the two blocks grown to cover everything,
and only `[i, j]` touched (as a permutation of the whole record list). -/
theorem partLoop_main (inc : Int) (t : ℚ) (left right : Int) (n : Nat)
    (hinc : inc = 0 ∨ inc = 1) (hl0 : 0 ≤ left) (hrn : right < (n : Int)) :
    ∀ N : Nat, ∀ (s : Store) (i j : Int), (j - i).toNat ≤ N →
    WFS s → s.Idxs.size = n →
    left + 1 ≤ i → i ≤ j + 1 → j ≤ right - 1 →
    (∀ p, left ≤ p → p < i → getC s.Coords (2 * p + inc) ≤ t) →
    (∀ p, j < p → p ≤ right → t ≤ getC s.Coords (2 * p + inc)) →
    (i ≤ j → t ≤ getC s.Coords (2 * i + inc) ∧ getC s.Coords (2 * j + inc) ≤ t) →
    WFS (partLoop s inc t i j).1 ∧ (partLoop s inc t i j).1.Idxs.size = n ∧
    (∀ p : Int, p < i ∨ j < p → entryAt (partLoop s inc t i j).1 p = entryAt s p) ∧
    (entriesList (partLoop s inc t i j).1).Perm (entriesList s) ∧
    left + 1 ≤ (partLoop s inc t i j).2.1 ∧
    (partLoop s inc t i j).2.2 ≤ (partLoop s inc t i j).2.1 ∧
    (partLoop s inc t i j).2.1 ≤ (partLoop s inc t i j).2.2 + 1 ∧
    (partLoop s inc t i j).2.2 ≤ right - 1 ∧
    (∀ p, left ≤ p → p < (partLoop s inc t i j).2.1 →
      getC (partLoop s inc t i j).1.Coords (2 * p + inc) ≤ t) ∧
    (∀ p, (partLoop s inc t i j).2.2 < p → p ≤ right →
      t ≤ getC (partLoop s inc t i j).1.Coords (2 * p + inc)) ∧
    ((partLoop s inc t i j).2.1 = (partLoop s inc t i j).2.2 →
      getC (partLoop s inc t i j).1.Coords (2 * (partLoop s inc t i j).2.1 + inc) = t) := by
  intro N
  induction N with
  | zero =>
    intro s i j hN hWF hsz hli hij1 hjr hbl hbr hstop
    have hij : ¬ i < j := by omega
    rw [partLoop, dif_neg hij]
    refine ⟨hWF, hsz, fun p _ => rfl, List.Perm.refl _, hli, show j ≤ i by omega,
      show i ≤ j + 1 by omega, hjr, hbl, hbr, ?_⟩
    intro hieq
    have hieq' : i = j := hieq
    show getC s.Coords (2 * i + inc) = t
    have h5 := hstop (by omega)
    rw [hieq'] at h5 ⊢
    exact le_antisymm h5.2 h5.1
  | succ N ih =>
    intro s i j hN hWF hsz hli hij1 hjr hbl hbr hstop
    by_cases hij : i < j
    · -- bounds on i and j inside the array
      have hi : 0 ≤ i ∧ i < (s.Idxs.size : Int) := by omega
      have hj : 0 ≤ j ∧ j < (s.Idxs.size : Int) := by omega
      have h5 := hstop (by omega)
      set s' := swapItem s i j with hs'
      have hWF' : WFS s' := WFS_swapItem s i j hWF
      have hsz' : s'.Idxs.size = n := by rw [hs', (swapItem_sizes s i j).1, hsz]
      have hcsz' : (s'.Coords.size : Int) = 2 * n := by
        have := hWF'
        unfold WFS at this
        push_cast [this, hsz']
        ring
      -- values after the swap
      have hv : ∀ p, getC s'.Coords (2 * p + inc) =
          if p = i then getC s.Coords (2 * j + inc)
          else if p = j then getC s.Coords (2 * i + inc)
          else getC s.Coords (2 * p + inc) :=
        fun p => getCv_swapItem s i j p inc hWF hinc hi hj
      have hvi : getC s'.Coords (2 * i + inc) ≤ t := by
        rw [hv i, if_pos rfl]; exact h5.2
      have hvj : t ≤ getC s'.Coords (2 * j + inc) := by
        rw [hv j, if_neg (by omega), if_pos rfl]; exact h5.1
      -- the two scans
      have hSI := scanI_spec s'.Coords inc t j (by omega) (by rw [hv j, if_neg (by omega), if_pos rfl]; exact not_lt.mpr h5.1)
        (i + 1) (by omega) (by omega)
      have hSJ := scanJ_spec s'.Coords inc t i (by omega) (by rw [hv i, if_pos rfl]; exact not_lt.mpr h5.2)
        (j - 1) (by omega) (by omega)
      set i' := scanI s'.Coords inc t (i + 1) with hi'def
      set j' := scanJ s'.Coords inc t (j - 1) with hj'def
      obtain ⟨hi'1, hi'2, hi'stop, hi'pass⟩ := hSI
      obtain ⟨hj'1, hj'2, hj'stop, hj'pass⟩ := hSJ
      -- pointers cannot cross by more than one
      have hcross : i' ≤ j' + 1 := by
        by_contra hcon
        push_neg at hcon
        have hp1 : getC s'.Coords (2 * (j' + 1) + inc) < t :=
          hi'pass (j' + 1) (by omega) (by omega)
        rcases eq_or_lt_of_le (show j' + 1 ≤ j by omega) with he | hlt2
        · rw [he] at hp1
          exact absurd hp1 (not_lt.mpr hvj)
        · have hp2 : getC s'.Coords (2 * (j' + 1) + inc) > t :=
            hj'pass (j' + 1) (by omega) (by omega)
          exact absurd hp1 (not_lt.mpr (le_of_lt hp2))
      -- new blocks
      have hbl' : ∀ p, left ≤ p → p < i' → getC s'.Coords (2 * p + inc) ≤ t := by
        intro p h1 h2
        rcases lt_trichotomy p i with hpi | hpi | hpi
        · rw [hv p, if_neg (by omega), if_neg (by omega)]
          exact hbl p h1 hpi
        · subst hpi; exact hvi
        · exact le_of_lt (hi'pass p (by omega) h2)
      have hbr' : ∀ p, j' < p → p ≤ right → t ≤ getC s'.Coords (2 * p + inc) := by
        intro p h1 h2
        rcases lt_trichotomy p j with hpj | hpj | hpj
        · exact le_of_lt (hj'pass p h1 (by omega))
        · subst hpj; exact hvj
        · rw [hv p, if_neg (by omega), if_neg (by omega)]
          exact hbr p hpj h2
      have hstop' : i' ≤ j' → t ≤ getC s'.Coords (2 * i' + inc) ∧
          getC s'.Coords (2 * j' + inc) ≤ t := by
        intro _
        exact ⟨not_lt.mp hi'stop, not_lt.mp hj'stop⟩
      -- apply the induction hypothesis
      have hrec := ih s' i' j' (by omega) hWF' hsz' (by omega) hcross (by omega)
        hbl' hbr' hstop'
      rw [partLoop, dif_pos hij]
      rw [← hi'def, ← hj'def, ← hs']
      obtain ⟨c1, c2, c3, c4, c5, c6, c7, c8, c9, c10, c11⟩ := hrec
      refine ⟨c1, c2, ?_, ?_, c5, c6, c7, c8, c9, c10, c11⟩
      · intro p hp
        rw [c3 p (by omega)]
        rw [hs', entryAt_swapItem s i j p hWF hi hj, if_neg (by omega), if_neg (by omega)]
      · exact c4.trans (entriesList_swapItem_perm s i j hWF hi hj)
    · rw [partLoop, dif_neg hij]
      refine ⟨hWF, hsz, fun p _ => rfl, List.Perm.refl _, hli, show j ≤ i by omega,
        show i ≤ j + 1 by omega, hjr, hbl, hbr, ?_⟩
      intro hieq
      have hieq' : i = j := hieq
      show getC s.Coords (2 * i + inc) = t
      have h5 := hstop (by omega)
      rw [hieq'] at h5 ⊢
      exact le_antisymm h5.2 h5.1

theorem sselect_eq (br : Int → Int → Int → Int × Int) (s : Store) (k left right inc : Int)
    (hlr : right > left) :
    sselect br s k left right inc =
      sselectTail br k left right inc (sselectFR br s k left right inc) := by
  rw [sselect, dif_pos hlr]
  rfl

theorem sselect_nop (br : Int → Int → Int → Int × Int) (s : Store) (k left right inc : Int)
    (hlr : ¬ right > left) :
    sselect br s k left right inc = (s, false) := by
  rw [sselect, dif_neg hlr]

theorem iMax_left_le (a b : Int) : a ≤ iMax a b := by unfold iMax; split <;> omega

theorem iMin_le_left (a b : Int) : iMin a b ≤ a := by unfold iMin; split <;> omega

/-- Equal records have equal axis values. -/
theorem entry_val_eq (s s' : Store) (p q inc : Int) (hinc : inc = 0 ∨ inc = 1)
    (h : entryAt s' p = entryAt s q) :
    getC s'.Coords (2 * p + inc) = getC s.Coords (2 * q + inc) := by
  rcases hinc with h0 | h1
  · subst h0
    have := congrArg (fun e => e.2.1) h
    simpa using this
  · subst h1
    have := congrArg (fun e => e.2.2) h
    simpa using this

/-- Axis-value form of `seg_transfer`. -/
theorem segVal_transfer (s s' : Store) (l r inc : Int) (hinc : inc = 0 ∨ inc = 1)
    (hn : s'.Idxs.size = s.Idxs.size)
    (hperm : (entriesList s').Perm (entriesList s))
    (hframe : ∀ p : Int, 0 ≤ p → p < (s.Idxs.size : Int) → (p < l ∨ r < p) →
      entryAt s' p = entryAt s p) :
    ∀ p : Int, l ≤ p → p ≤ r → 0 ≤ p → p < (s.Idxs.size : Int) →
      ∃ q : Int, l ≤ q ∧ q ≤ r ∧ 0 ≤ q ∧ q < (s.Idxs.size : Int) ∧
        getC s'.Coords (2 * p + inc) = getC s.Coords (2 * q + inc) := by
  intro p h1 h2 h3 h4
  obtain ⟨q, hq1, hq2, hq3, hq4, hq5⟩ := seg_transfer s s' l r hn hperm hframe p h1 h2 h3 h4
  exact ⟨q, hq1, hq2, hq3, hq4, entry_val_eq s s' p q inc hinc hq5⟩

/-- Specification of the pre-pivot swaps (lines 212–215): only
`{left, k, right}` move, records are permuted, and afterwards the sentinel
values satisfy `t ≤ v(left)` and `v(right) ≤ t`, one of the two being
exactly `t`. -/
theorem prePivot_spec (s0 : Store) (t : ℚ) (left k right inc : Int) (n : Nat)
    (hinc : inc = 0 ∨ inc = 1) (hWF : WFS s0) (hsz : s0.Idxs.size = n)
    (hl : 0 ≤ left) (hlr : left < right) (hr : right < (n : Int))
    (hk0 : 0 ≤ k) (hkn : k < (n : Int))
    (ht : getC s0.Coords (2 * k + inc) = t) :
    WFS (prePivot s0 t left k right inc) ∧
    (prePivot s0 t left k right inc).Idxs.size = n ∧
    (∀ p : Int, p ≠ left → p ≠ k → p ≠ right →
      entryAt (prePivot s0 t left k right inc) p = entryAt s0 p) ∧
    (entriesList (prePivot s0 t left k right inc)).Perm (entriesList s0) ∧
    t ≤ getC (prePivot s0 t left k right inc).Coords (2 * left + inc) ∧
    getC (prePivot s0 t left k right inc).Coords (2 * right + inc) ≤ t ∧
    (getC (prePivot s0 t left k right inc).Coords (2 * left + inc) = t ∨
      getC (prePivot s0 t left k right inc).Coords (2 * right + inc) = t) := by
  have hbl : 0 ≤ left ∧ left < (s0.Idxs.size : Int) := by omega
  have hbk : 0 ≤ k ∧ k < (s0.Idxs.size : Int) := by omega
  have hbr : 0 ≤ right ∧ right < (s0.Idxs.size : Int) := by omega
  set s1 := swapItem s0 left k with hs1
  have hWF1 : WFS s1 := WFS_swapItem s0 left k hWF
  have hsz1 : s1.Idxs.size = n := by rw [hs1, (swapItem_sizes s0 left k).1, hsz]
  have hv1 : ∀ p, getC s1.Coords (2 * p + inc) =
      if p = left then getC s0.Coords (2 * k + inc)
      else if p = k then getC s0.Coords (2 * left + inc)
      else getC s0.Coords (2 * p + inc) :=
    fun p => getCv_swapItem s0 left k p inc hWF hinc hbl hbk
  have hv1l : getC s1.Coords (2 * left + inc) = t := by rw [hv1 left, if_pos rfl, ht]
  have hbl1 : 0 ≤ left ∧ left < (s1.Idxs.size : Int) := by omega
  have hbr1 : 0 ≤ right ∧ right < (s1.Idxs.size : Int) := by omega
  unfold prePivot
  rw [← hs1]
  by_cases hc : getC s1.Coords (2 * right + inc) > t
  · rw [if_pos hc]
    have hv2 : ∀ p, getC (swapItem s1 left right).Coords (2 * p + inc) =
        if p = left then getC s1.Coords (2 * right + inc)
        else if p = right then getC s1.Coords (2 * left + inc)
        else getC s1.Coords (2 * p + inc) :=
      fun p => getCv_swapItem s1 left right p inc hWF1 hinc hbl1 hbr1
    refine ⟨WFS_swapItem s1 left right hWF1,
      by rw [(swapItem_sizes s1 left right).1, hsz1], ?_, ?_, ?_, ?_, ?_⟩
    · intro p hpl hpk hpr
      rw [entryAt_swapItem s1 left right p hWF1 hbl1 hbr1, if_neg hpl, if_neg hpr,
        hs1, entryAt_swapItem s0 left k p hWF hbl hbk, if_neg hpl, if_neg hpk]
    · exact (entriesList_swapItem_perm s1 left right hWF1 hbl1 hbr1).trans
        (entriesList_swapItem_perm s0 left k hWF hbl hbk)
    · rw [hv2 left, if_pos rfl]
      exact le_of_lt hc
    · rw [hv2 right]
      by_cases hlr' : right = left
      · omega
      · rw [if_neg hlr', if_pos rfl, hv1l]
    · right
      rw [hv2 right]
      by_cases hlr' : right = left
      · omega
      · rw [if_neg hlr', if_pos rfl, hv1l]
  · rw [if_neg hc]
    refine ⟨hWF1, hsz1, ?_, ?_, ?_, ?_, ?_⟩
    · intro p hpl hpk _
      rw [hs1, entryAt_swapItem s0 left k p hWF hbl hbk, if_neg hpl, if_neg hpk]
    · exact entriesList_swapItem_perm s0 left k hWF hbl hbk
    · rw [hv1l]
    · exact not_lt.mp hc
    · left; exact hv1l

/-- Specification of the pivot placement (lines 229–234): given the loop
exit state (everything in `[left, j0]` is `≤ t`, everything in
`(j0, right]` is `≥ t`, and one of the sentinels holds `t` exactly), the
returned position `j1 ∈ [left, right]` holds exactly `t`, with `≤ t` left
of it and `≥ t` right of it; only `[left, right]` is touched. -/
theorem place_spec (s3 : Store) (t : ℚ) (left right j0 inc : Int) (n : Nat)
    (hinc : inc = 0 ∨ inc = 1) (hWF : WFS s3) (hsz : s3.Idxs.size = n)
    (hl : 0 ≤ left) (hlr : left < right) (hr : right < (n : Int))
    (hj0l : left ≤ j0) (hj0r : j0 ≤ right - 1)
    (H1 : ∀ p, left ≤ p → p ≤ j0 → getC s3.Coords (2 * p + inc) ≤ t)
    (H3 : ∀ p, j0 < p → p ≤ right → t ≤ getC s3.Coords (2 * p + inc))
    (H4 : getC s3.Coords (2 * left + inc) = t ∨ getC s3.Coords (2 * right + inc) = t) :
    WFS (place s3 t left right j0 inc).1 ∧
    (place s3 t left right j0 inc).1.Idxs.size = n ∧
    (∀ p : Int, p < left ∨ right < p →
      entryAt (place s3 t left right j0 inc).1 p = entryAt s3 p) ∧
    (entriesList (place s3 t left right j0 inc).1).Perm (entriesList s3) ∧
    left ≤ (place s3 t left right j0 inc).2 ∧
    (place s3 t left right j0 inc).2 ≤ right ∧
    getC (place s3 t left right j0 inc).1.Coords
      (2 * (place s3 t left right j0 inc).2 + inc) = t ∧
    (∀ p, left ≤ p → p < (place s3 t left right j0 inc).2 →
      getC (place s3 t left right j0 inc).1.Coords (2 * p + inc) ≤ t) ∧
    (∀ p, (place s3 t left right j0 inc).2 < p → p ≤ right →
      t ≤ getC (place s3 t left right j0 inc).1.Coords (2 * p + inc)) := by
  have hbl : 0 ≤ left ∧ left < (s3.Idxs.size : Int) := by omega
  have hbj : 0 ≤ j0 ∧ j0 < (s3.Idxs.size : Int) := by omega
  have hbj1 : 0 ≤ j0 + 1 ∧ j0 + 1 < (s3.Idxs.size : Int) := by omega
  have hbr : 0 ≤ right ∧ right < (s3.Idxs.size : Int) := by omega
  unfold place
  by_cases hc : getC s3.Coords (2 * left + inc) = t
  · rw [if_pos hc]
    have hv : ∀ p, getC (swapItem s3 left j0).Coords (2 * p + inc) =
        if p = left then getC s3.Coords (2 * j0 + inc)
        else if p = j0 then getC s3.Coords (2 * left + inc)
        else getC s3.Coords (2 * p + inc) :=
      fun p => getCv_swapItem s3 left j0 p inc hWF hinc hbl hbj
    refine ⟨WFS_swapItem s3 left j0 hWF, by rw [(swapItem_sizes s3 left j0).1, hsz],
      ?_, entriesList_swapItem_perm s3 left j0 hWF hbl hbj, hj0l, by omega, ?_, ?_, ?_⟩
    · intro p hp
      rw [entryAt_swapItem s3 left j0 p hWF hbl hbj, if_neg (by omega), if_neg (by omega)]
    · show getC (swapItem s3 left j0).Coords (2 * j0 + inc) = t
      rw [hv j0]
      by_cases hjl : j0 = left
      · rw [if_pos hjl, hjl, hc]
      · rw [if_neg hjl, if_pos rfl, hc]
    · intro p h1 h2
      show getC (swapItem s3 left j0).Coords (2 * p + inc) ≤ t
      rw [hv p]
      by_cases hpl : p = left
      · rw [if_pos hpl]
        exact H1 j0 hj0l (le_refl _)
      · rw [if_neg hpl, if_neg (by omega)]
        exact H1 p h1 (by omega)
    · intro p h1 h2
      show t ≤ getC (swapItem s3 left j0).Coords (2 * p + inc)
      rw [hv p, if_neg (by omega), if_neg (by omega)]
      exact H3 p h1 h2
  · rw [if_neg hc]
    have hv : ∀ p, getC (swapItem s3 (j0 + 1) right).Coords (2 * p + inc) =
        if p = j0 + 1 then getC s3.Coords (2 * right + inc)
        else if p = right then getC s3.Coords (2 * (j0 + 1) + inc)
        else getC s3.Coords (2 * p + inc) :=
      fun p => getCv_swapItem s3 (j0 + 1) right p inc hWF hinc hbj1 hbr
    have hrt : getC s3.Coords (2 * right + inc) = t := by
      rcases H4 with h | h
      · exact absurd h hc
      · exact h
    refine ⟨WFS_swapItem s3 (j0 + 1) right hWF,
      by rw [(swapItem_sizes s3 (j0 + 1) right).1, hsz],
      ?_, entriesList_swapItem_perm s3 (j0 + 1) right hWF hbj1 hbr, by omega, by omega,
      ?_, ?_, ?_⟩
    · intro p hp
      rw [entryAt_swapItem s3 (j0 + 1) right p hWF hbj1 hbr, if_neg (by omega),
        if_neg (by omega)]
    · show getC (swapItem s3 (j0 + 1) right).Coords (2 * (j0 + 1) + inc) = t
      rw [hv (j0 + 1), if_pos rfl, hrt]
    · intro p h1 h2
      show getC (swapItem s3 (j0 + 1) right).Coords (2 * p + inc) ≤ t
      rw [hv p, if_neg (by omega), if_neg (by omega)]
      exact H1 p h1 (by omega)
    · intro p h1 h2
      show t ≤ getC (swapItem s3 (j0 + 1) right).Coords (2 * p + inc)
      rw [hv p]
      by_cases hpr : p = right
      · rw [if_neg (by omega), if_pos hpr]
        exact H3 (j0 + 1) (by omega) (by omega)
      · rw [if_neg (by omega), if_neg hpr]
        exact H3 p (by omega) h2

/-- Master specification of `sselect`: the loop always terminates cleanly
(`flag = false`), touches only `[left, right] ∪ {k}`, permutes the records,
and when `k ∈ [left, right]` it partitions the range around position `k`.
Holds for every sampling bracket `br`. -/
theorem sselect_main (br : Int → Int → Int → Int × Int) (inc : Int) (n : Nat)
    (hinc : inc = 0 ∨ inc = 1) :
    ∀ N : Nat, ∀ (s : Store) (k left right : Int), (right - left).toNat ≤ N →
    WFS s → s.Idxs.size = n → 0 ≤ left → right < (n : Int) → 0 ≤ k → k < (n : Int) →
    (sselect br s k left right inc).2 = false ∧
    WFS (sselect br s k left right inc).1 ∧
    (sselect br s k left right inc).1.Idxs.size = n ∧
    (∀ p : Int, p < left ∨ right < p → p ≠ k →
      entryAt (sselect br s k left right inc).1 p = entryAt s p) ∧
    (entriesList (sselect br s k left right inc).1).Perm (entriesList s) ∧
    (left ≤ k → k ≤ right →
      (∀ p, left ≤ p → p < k →
        getC (sselect br s k left right inc).1.Coords (2 * p + inc) ≤
          getC (sselect br s k left right inc).1.Coords (2 * k + inc)) ∧
      (∀ p, k < p → p ≤ right →
        getC (sselect br s k left right inc).1.Coords (2 * k + inc) ≤
          getC (sselect br s k left right inc).1.Coords (2 * p + inc))) := by
  intro N
  induction N with
  | zero =>
    intro s k left right hN hWF hsz hl hr hk0 hkn
    have hlr : ¬ right > left := by omega
    rw [sselect_nop br s k left right inc hlr]
    refine ⟨rfl, hWF, hsz, fun p _ _ => rfl, List.Perm.refl _, ?_⟩
    intro h1 h2
    exact ⟨fun p hp1 hp2 => absurd hp2 (by omega), fun p hp1 hp2 => absurd hp1 (by omega)⟩
  | succ N ih =>
    intro s k left right hN hWF hsz hl hr hk0 hkn
    by_cases hlr : right > left
    case neg =>
      rw [sselect_nop br s k left right inc hlr]
      refine ⟨rfl, hWF, hsz, fun p _ _ => rfl, List.Perm.refl _, ?_⟩
      intro h1 h2
      exact ⟨fun p hp1 hp2 => absurd hp2 (by omega), fun p hp1 hp2 => absurd hp1 (by omega)⟩
    case pos =>
    rw [sselect_eq br s k left right inc hlr]
    -- the sampling step
    have hFR : (sselectFR br s k left right inc).2 = false ∧
        WFS (sselectFR br s k left right inc).1 ∧
        (sselectFR br s k left right inc).1.Idxs.size = n ∧
        (∀ p : Int, p < left ∨ right < p → p ≠ k →
          entryAt (sselectFR br s k left right inc).1 p = entryAt s p) ∧
        (entriesList (sselectFR br s k left right inc).1).Perm (entriesList s) := by
      simp only [sselectFR]
      split
      · split
        · next hshr =>
          have h1 := iMax_left_le left (br k left right).1
          have h2 := iMin_le_left right (br k left right).2
          have hrec := ih s k (iMax left (br k left right).1)
            (iMin right (br k left right).2) (by omega) hWF hsz (by omega) (by omega)
            hk0 hkn
          exact ⟨hrec.1, hrec.2.1, hrec.2.2.1,
            fun p hp hpk => hrec.2.2.2.1 p (by omega) hpk, hrec.2.2.2.2.1⟩
        · exact ⟨rfl, hWF, hsz, fun p _ _ => rfl, List.Perm.refl _⟩
      · exact ⟨rfl, hWF, hsz, fun p _ _ => rfl, List.Perm.refl _⟩
    obtain ⟨hFRf, hFRwf, hFRsz, hFRframe, hFRperm⟩ := hFR
    simp only [sselectTail]
    set s0 := (sselectFR br s k left right inc).1 with hs0
    set t := getC s0.Coords (2 * k + inc) with htdef
    have hPre := prePivot_spec s0 t left k right inc n hinc hFRwf hFRsz hl hlr hr hk0 hkn
      htdef.symm
    set s2 := prePivot s0 t left k right inc with hs2
    obtain ⟨hWF2, hsz2, hframe2, hperm2, hvl2, hvr2, hdisj2⟩ := hPre
    -- first iteration of the partition loop, done by hand
    set s3' := swapItem s2 left right with hs3'
    have hbL2 : 0 ≤ left ∧ left < (s2.Idxs.size : Int) := by omega
    have hbR2 : 0 ≤ right ∧ right < (s2.Idxs.size : Int) := by omega
    have hWF3' : WFS s3' := WFS_swapItem s2 left right hWF2
    have hsz3' : s3'.Idxs.size = n := by rw [hs3', (swapItem_sizes s2 left right).1, hsz2]
    have hcsz3' : (s3'.Coords.size : Int) = 2 * (n : Int) := by
      have h := hWF3'
      unfold WFS at h
      push_cast [h, hsz3']
      ring
    have hv3' : ∀ p, getC s3'.Coords (2 * p + inc) =
        if p = left then getC s2.Coords (2 * right + inc)
        else if p = right then getC s2.Coords (2 * left + inc)
        else getC s2.Coords (2 * p + inc) :=
      fun p => getCv_swapItem s2 left right p inc hWF2 hinc hbL2 hbR2
    have hv3l : getC s3'.Coords (2 * left + inc) ≤ t := by
      rw [hv3' left, if_pos rfl]; exact hvr2
    have hv3r : t ≤ getC s3'.Coords (2 * right + inc) := by
      rw [hv3' right, if_neg (by omega), if_pos rfl]; exact hvl2
    have hSI := scanI_spec s3'.Coords inc t right (by omega)
      (not_lt.mpr hv3r) (left + 1) (by omega) (by omega)
    have hSJ := scanJ_spec s3'.Coords inc t left (by omega)
      (not_lt.mpr hv3l) (right - 1) (by omega) (by omega)
    set i1 := scanI s3'.Coords inc t (left + 1) with hi1
    set j1 := scanJ s3'.Coords inc t (right - 1) with hj1
    obtain ⟨hi11, hi12, hi1stop, hi1pass⟩ := hSI
    obtain ⟨hj11, hj12, hj1stop, hj1pass⟩ := hSJ
    have hcross : i1 ≤ j1 + 1 := by
      by_contra hcon
      push_neg at hcon
      have hp1 : getC s3'.Coords (2 * (j1 + 1) + inc) < t :=
        hi1pass (j1 + 1) (by omega) (by omega)
      rcases eq_or_lt_of_le (show j1 + 1 ≤ right by omega) with he | hlt2
      · rw [he] at hp1
        exact absurd hp1 (not_lt.mpr hv3r)
      · have hp2 : getC s3'.Coords (2 * (j1 + 1) + inc) > t :=
          hj1pass (j1 + 1) (by omega) (by omega)
        exact absurd hp1 (not_lt.mpr (le_of_lt hp2))
    have hbl1 : ∀ p, left ≤ p → p < i1 → getC s3'.Coords (2 * p + inc) ≤ t := by
      intro p h1 h2
      rcases eq_or_lt_of_le h1 with he | hlt2
      · rw [← he]; exact hv3l
      · exact le_of_lt (hi1pass p (by omega) h2)
    have hbr1 : ∀ p, j1 < p → p ≤ right → t ≤ getC s3'.Coords (2 * p + inc) := by
      intro p h1 h2
      rcases eq_or_lt_of_le h2 with he | hlt2
      · rw [he]; exact hv3r
      · exact le_of_lt (hj1pass p h1 (by omega))
    have hstop1 : i1 ≤ j1 → t ≤ getC s3'.Coords (2 * i1 + inc) ∧
        getC s3'.Coords (2 * j1 + inc) ≤ t := fun _ =>
      ⟨not_lt.mp hi1stop, not_lt.mp hj1stop⟩
    have hPL := partLoop_main inc t left right n hinc hl hr (j1 - i1).toNat s3' i1 j1
      (le_refl _) hWF3' hsz3' hi11 hcross (by omega) hbl1 hbr1 hstop1
    have hPLeq : partLoop s2 inc t left right = partLoop s3' inc t i1 j1 := by
      rw [partLoop, dif_pos hlr, ← hs3', ← hi1, ← hj1]
    rw [hPLeq]
    obtain ⟨hWFf, hszf, hframef, hpermf, hif1, hif2, hif3, hif4, hblf, hbrf, hvalf⟩ := hPL
    set SF := (partLoop s3' inc t i1 j1).1 with hSF
    set jf := (partLoop s3' inc t i1 j1).2.2 with hjf
    set i_f := (partLoop s3' inc t i1 j1).2.1 with hi_f
    -- the placement step
    have hvfl : getC SF.Coords (2 * left + inc) = getC s2.Coords (2 * right + inc) := by
      have he : entryAt SF left = entryAt s3' left := hframef left (by omega)
      rw [entry_val_eq s3' SF left left inc hinc he, hv3' left, if_pos rfl]
    have hvfr : getC SF.Coords (2 * right + inc) = getC s2.Coords (2 * left + inc) := by
      have he : entryAt SF right = entryAt s3' right := hframef right (by omega)
      rw [entry_val_eq s3' SF right right inc hinc he, hv3' right, if_neg (by omega),
        if_pos rfl]
    have hH1 : ∀ p, left ≤ p → p ≤ jf → getC SF.Coords (2 * p + inc) ≤ t := by
      intro p h1 h2
      rcases lt_or_eq_of_le h2 with hlt2 | he
      · exact hblf p h1 (by omega)
      · subst he
        rcases eq_or_lt_of_le hif3 with he2 | hlt3
        · exact hblf jf h1 (by omega)
        · have h6 : i_f = jf := by omega
          have h7 := hvalf h6
          rw [h6] at h7
          exact le_of_eq h7
    have hH4 : getC SF.Coords (2 * left + inc) = t ∨ getC SF.Coords (2 * right + inc) = t := by
      rcases hdisj2 with h | h
      · right; rw [hvfr]; exact h
      · left; rw [hvfl]; exact h
    have hPlace := place_spec SF t left right jf inc n hinc hWFf hszf hl hlr hr
      (by omega) hif4 hH1 hbrf hH4
    set PJ := place SF t left right jf inc with hPJ
    obtain ⟨hWF4, hsz4, hframe4, hperm4, hj1l, hj1r, hvj4, hbl4, hbr4⟩ := hPlace
    set L2 := if PJ.2 ≤ k then PJ.2 + 1 else left with hL2
    set R2 := if k ≤ PJ.2 then PJ.2 - 1 else right with hR2
    have hsh : (R2 - L2).toNat < (right - left).toNat := by
      rw [hL2, hR2]
      split <;> split <;> omega
    rw [if_pos hsh]
    have hL2b : 0 ≤ L2 := by rw [hL2]; split <;> omega
    have hR2b : R2 < (n : Int) := by rw [hR2]; split <;> omega
    have hL2ge : left ≤ L2 := by rw [hL2]; split <;> omega
    have hR2le : R2 ≤ right := by rw [hR2]; split <;> omega
    have hcont := ih PJ.1 k L2 R2 (by omega) hWF4 hsz4 hL2b hR2b hk0 hkn
    obtain ⟨hcf, hcwf, hcsz, hcframe, hcperm, hcpart⟩ := hcont
    -- the permutation of the whole pipeline
    have hperm3' : (entriesList s3').Perm (entriesList s2) :=
      entriesList_swapItem_perm s2 left right hWF2 hbL2 hbR2
    have hpermAll : (entriesList (sselect br PJ.1 k L2 R2 inc).1).Perm (entriesList s) :=
      hcperm.trans (hperm4.trans (hpermf.trans (hperm3'.trans (hperm2.trans hFRperm))))
    -- the frame of the whole pipeline
    have hframeAll : ∀ p : Int, p < left ∨ right < p → p ≠ k →
        entryAt (sselect br PJ.1 k L2 R2 inc).1 p = entryAt s p := by
      intro p hp hpk
      have e1 : entryAt (sselect br PJ.1 k L2 R2 inc).1 p = entryAt PJ.1 p :=
        hcframe p (by omega) hpk
      have e2 : entryAt PJ.1 p = entryAt SF p := hframe4 p hp
      have e3 : entryAt SF p = entryAt s3' p := hframef p (by omega)
      have e4 : entryAt s3' p = entryAt s2 p := by
        rw [hs3', entryAt_swapItem s2 left right p hWF2 hbL2 hbR2, if_neg (by omega),
          if_neg (by omega)]
      have e5 : entryAt s2 p = entryAt s0 p := hframe2 p (by omega) hpk (by omega)
      have e6 : entryAt s0 p = entryAt s p := hFRframe p hp hpk
      rw [e1, e2, e3, e4, e5, e6]
    refine ⟨?_, hcwf, hcsz, hframeAll, hpermAll, ?_⟩
    · show ((sselectFR br s k left right inc).2 || (sselect br PJ.1 k L2 R2 inc).2) = false
      rw [hFRf, hcf]
      rfl
    · intro hlk hkr
      rcases lt_trichotomy PJ.2 k with hc1 | hc2 | hc3
      · -- pivot landed left of k
        have hL2v : L2 = PJ.2 + 1 := by rw [hL2, if_pos (le_of_lt hc1)]
        have hR2v : R2 = right := by rw [hR2, if_neg (by omega)]
        obtain ⟨hcl, hcr⟩ := hcpart (by omega) (by omega)
        have hvk : t ≤ getC (sselect br PJ.1 k L2 R2 inc).1.Coords (2 * k + inc) := by
          obtain ⟨q, hq1, hq2, hq3, hq4, hq5⟩ := segVal_transfer PJ.1
            (sselect br PJ.1 k L2 R2 inc).1 L2 R2 inc hinc (by rw [hcsz, hsz4])
            hcperm (fun p h1 h2 h3 => hcframe p h3 (by omega)) k (by omega) (by omega)
            hk0 (by omega)
          rw [hq5]
          exact hbr4 q (by omega) (by omega)
        constructor
        · intro p hp1 hp2
          by_cases hple : p ≤ PJ.2
          · have he : entryAt (sselect br PJ.1 k L2 R2 inc).1 p = entryAt PJ.1 p :=
              hcframe p (by omega) (by omega)
            rw [entry_val_eq PJ.1 (sselect br PJ.1 k L2 R2 inc).1 p p inc hinc he]
            refine le_trans ?_ hvk
            rcases lt_or_eq_of_le hple with hlt4 | he4
            · exact hbl4 p hp1 hlt4
            · rw [he4]; exact le_of_eq hvj4
          · exact hcl p (by omega) hp2
        · intro p hp1 hp2
          exact hcr p hp1 (by omega)
      · -- pivot landed exactly at k
        have hL2v : L2 = k + 1 := by rw [hL2, hc2, if_pos (le_refl _)]
        have hR2v : R2 = k - 1 := by rw [hR2, hc2, if_pos (le_refl _)]
        have hnop : sselect br PJ.1 k L2 R2 inc = (PJ.1, false) :=
          sselect_nop br PJ.1 k L2 R2 inc (by omega)
        rw [hnop]
        have hvkt : getC PJ.1.Coords (2 * k + inc) = t := by rw [← hc2]; exact hvj4
        constructor
        · intro p hp1 hp2
          show getC PJ.1.Coords (2 * p + inc) ≤ getC PJ.1.Coords (2 * k + inc)
          rw [hvkt]
          exact hbl4 p hp1 (by omega)
        · intro p hp1 hp2
          show getC PJ.1.Coords (2 * k + inc) ≤ getC PJ.1.Coords (2 * p + inc)
          rw [hvkt]
          exact hbr4 p (by omega) hp2
      · -- pivot landed right of k
        have hL2v : L2 = left := by rw [hL2, if_neg (by omega)]
        have hR2v : R2 = PJ.2 - 1 := by rw [hR2, if_pos (le_of_lt hc3)]
        obtain ⟨hcl, hcr⟩ := hcpart (by omega) (by omega)
        have hvk : getC (sselect br PJ.1 k L2 R2 inc).1.Coords (2 * k + inc) ≤ t := by
          obtain ⟨q, hq1, hq2, hq3, hq4, hq5⟩ := segVal_transfer PJ.1
            (sselect br PJ.1 k L2 R2 inc).1 L2 R2 inc hinc (by rw [hcsz, hsz4])
            hcperm (fun p h1 h2 h3 => hcframe p h3 (by omega)) k (by omega) (by omega)
            hk0 (by omega)
          rw [hq5]
          rcases lt_or_eq_of_le (show q ≤ PJ.2 - 1 by omega) with hlt4 | he4
          · exact hbl4 q (by omega) (by omega)
          · rw [show q = PJ.2 - 1 from he4] at hq5 ⊢
            exact hbl4 (PJ.2 - 1) (by omega) (by omega)
        constructor
        · intro p hp1 hp2
          exact hcl p (by omega) hp2
        · intro p hp1 hp2
          by_cases hpge : PJ.2 ≤ p
          · have he : entryAt (sselect br PJ.1 k L2 R2 inc).1 p = entryAt PJ.1 p :=
              hcframe p (by omega) (by omega)
            rw [entry_val_eq PJ.1 (sselect br PJ.1 k L2 R2 inc).1 p p inc hinc he]
            refine le_trans hvk ?_
            rcases lt_or_eq_of_le hpge with hlt4 | he4
            · exact hbr4 p hlt4 hp2
            · rw [← he4]; exact le_of_eq hvj4.symm
          · exact hcr p hp1 (by omega)

theorem mem_posList (left right x : Int) : x ∈ posList left right ↔ left ≤ x ∧ x ≤ right := by
  have main : ∀ N : Nat, ∀ l : Int, (right + 1 - l).toNat ≤ N →
      (x ∈ posList l right ↔ l ≤ x ∧ x ≤ right) := by
    intro N
    induction N with
    | zero =>
      intro l hN
      rw [posList, if_neg (by omega)]
      simp only [List.not_mem_nil, false_iff]
      omega
    | succ N ih =>
      intro l hN
      by_cases hlr : l ≤ right
      · rw [posList, if_pos hlr, List.mem_cons, ih (l + 1) (by omega)]
        omega
      · rw [posList, if_neg hlr]
        simp only [List.not_mem_nil, false_iff]
        omega
  exact main (right + 1 - left).toNat left (le_refl _)

theorem list_all_congr {α} (l : List α) (f g : α → Bool) (h : ∀ x ∈ l, f x = g x) :
    l.all f = l.all g := by
  induction l with
  | nil => rfl
  | cons a l ih =>
    rw [List.all_cons, List.all_cons, h a (List.mem_cons_self a l),
      ih fun x hx => h x (List.mem_cons_of_mem a hx)]

/-- `kdOrdered` only looks at the records inside `[left, right]`. -/
theorem kdOrdered_congr (s s' : Store) (nodeSize : Int) :
    ∀ N : Nat, ∀ left right axis : Int, (right - left).toNat ≤ N →
    (axis = 0 ∨ axis = 1) →
    (∀ p, left ≤ p → p ≤ right → entryAt s' p = entryAt s p) →
    kdOrdered s' nodeSize left right axis = kdOrdered s nodeSize left right axis := by
  intro N
  induction N with
  | zero =>
    intro left right axis hN haxis hsame
    conv_lhs => rw [kdOrdered]
    conv_rhs => rw [kdOrdered]
    have : right - left ≤ nodeSize ∨ right ≤ left := by omega
    rcases this with h | h
    · rw [if_pos h, if_pos h]
    · by_cases h2 : right - left ≤ nodeSize
      · rw [if_pos h2, if_pos h2]
      · rw [if_neg h2, if_neg h2, if_pos h, if_pos h]
  | succ N ih =>
    intro left right axis hN haxis hsame
    conv_lhs => rw [kdOrdered]
    conv_rhs => rw [kdOrdered]
    by_cases h2 : right - left ≤ nodeSize
    · rw [if_pos h2, if_pos h2]
    · rw [if_neg h2, if_neg h2]
      by_cases h3 : right ≤ left
      · rw [if_pos h3, if_pos h3]
      · rw [if_neg h3, if_neg h3]
        have hm1 : left ≤ (left + right) / 2 := by omega
        have hm2 : (left + right) / 2 < right := by omega
        have hval : ∀ p, left ≤ p → p ≤ right →
            getC s'.Coords (2 * p + axis) = getC s.Coords (2 * p + axis) :=
          fun p h1 h4 => entry_val_eq s s' p p axis haxis (hsame p h1 h4)
        have e1 : ((posList left ((left + right) / 2 - 1)).all fun p =>
            decide (getC s'.Coords (2 * p + axis) ≤
              getC s'.Coords (2 * ((left + right) / 2) + axis))) =
            ((posList left ((left + right) / 2 - 1)).all fun p =>
            decide (getC s.Coords (2 * p + axis) ≤
              getC s.Coords (2 * ((left + right) / 2) + axis))) := by
          apply list_all_congr _ _ _
          intro p hp
          rw [mem_posList] at hp
          rw [hval p (by omega) (by omega), hval ((left + right) / 2) (by omega) (by omega)]
        have e2 : ((posList ((left + right) / 2 + 1) right).all fun p =>
            decide (getC s'.Coords (2 * ((left + right) / 2) + axis) ≤
              getC s'.Coords (2 * p + axis))) =
            ((posList ((left + right) / 2 + 1) right).all fun p =>
            decide (getC s.Coords (2 * ((left + right) / 2) + axis) ≤
              getC s.Coords (2 * p + axis))) := by
          apply list_all_congr _ _ _
          intro p hp
          rw [mem_posList] at hp
          rw [hval p (by omega) (by omega), hval ((left + right) / 2) (by omega) (by omega)]
        have e3 : kdOrdered s' nodeSize left ((left + right) / 2 - 1) ((axis + 1) % 2) =
            kdOrdered s nodeSize left ((left + right) / 2 - 1) ((axis + 1) % 2) := by
          apply ih _ _ _ (by omega) (by omega)
          intro p h1 h4
          exact hsame p h1 (by omega)
        have e4 : kdOrdered s' nodeSize ((left + right) / 2 + 1) right ((axis + 1) % 2) =
            kdOrdered s nodeSize ((left + right) / 2 + 1) right ((axis + 1) % 2) := by
          apply ih _ _ _ (by omega) (by omega)
          intro p h1 h4
          exact hsame p (by omega) h4
        rw [e1, e2, e3, e4]

/-- The recursive builder `sort` touches only `[left, right]`, permutes the
records, and establishes the k-d partial order on `[left, right]` at axis
`depth % 2`. -/
theorem sort_main (br : Int → Int → Int → Int × Int) (n : Nat) :
    ∀ N : Nat, ∀ (s : Store) (nodeSize left right depth : Int),
    (right - left).toNat ≤ N →
    WFS s → s.Idxs.size = n → 0 ≤ left → right < (n : Int) → 0 ≤ depth →
    WFS (sort br s nodeSize left right depth) ∧
    (sort br s nodeSize left right depth).Idxs.size = n ∧
    (∀ p : Int, p < left ∨ right < p →
      entryAt (sort br s nodeSize left right depth) p = entryAt s p) ∧
    (entriesList (sort br s nodeSize left right depth)).Perm (entriesList s) ∧
    kdOrdered (sort br s nodeSize left right depth) nodeSize left right (depth % 2) = true := by
  intro N
  induction N with
  | zero =>
    intro s nodeSize left right depth hN hWF hsz hl hr hd
    have hrl : right ≤ left := by omega
    have hkd : ∀ u : Store, kdOrdered u nodeSize left right (depth % 2) = true := by
      intro u
      rw [kdOrdered]
      by_cases h1 : right - left ≤ nodeSize
      · rw [if_pos h1]
      · rw [if_neg h1, if_pos hrl]
    by_cases h1 : right - left ≤ nodeSize
    · rw [sort, if_pos h1]
      exact ⟨hWF, hsz, fun p _ => rfl, List.Perm.refl _, hkd s⟩
    · rw [sort, if_neg h1, if_pos hrl]
      exact ⟨hWF, hsz, fun p _ => rfl, List.Perm.refl _, hkd s⟩
  | succ N ih =>
    intro s nodeSize left right depth hN hWF hsz hl hr hd
    by_cases h1 : right - left ≤ nodeSize
    · rw [sort, if_pos h1]
      refine ⟨hWF, hsz, fun p _ => rfl, List.Perm.refl _, ?_⟩
      rw [kdOrdered, if_pos h1]
    · by_cases h2 : right ≤ left
      · rw [sort, if_neg h1, if_pos h2]
        refine ⟨hWF, hsz, fun p _ => rfl, List.Perm.refl _, ?_⟩
        rw [kdOrdered, if_neg h1, if_pos h2]
      · rw [sort, if_neg h1, if_neg h2]
        have hm1 : left ≤ (left + right) / 2 := by omega
        have hm2 : (left + right) / 2 < right := by omega
        have hincd : depth % 2 = 0 ∨ depth % 2 = 1 := by omega
        have hsel := sselect_main br (depth % 2) n hincd (right - left).toNat s
          ((left + right) / 2) left right (le_refl _) hWF hsz hl hr (by omega) (by omega)
        obtain ⟨_, hWF1, hsz1, hframe1, hperm1, hpart1⟩ := hsel
        obtain ⟨hpartL, hpartR⟩ := hpart1 hm1 (le_of_lt hm2)
        set S1 := (sselect br s ((left + right) / 2) left right (depth % 2)).1 with hS1
        have hso1 := ih S1 nodeSize left ((left + right) / 2 - 1) (depth + 1)
          (by omega) hWF1 hsz1 hl (by omega) (by omega)
        obtain ⟨hWF2, hsz2, hframe2, hperm2, hkd2⟩ := hso1
        set S2 := sort br S1 nodeSize left ((left + right) / 2 - 1) (depth + 1) with hS2
        have hso2 := ih S2 nodeSize ((left + right) / 2 + 1) right (depth + 1)
          (by omega) hWF2 hsz2 (by omega) hr (by omega)
        obtain ⟨hWF3, hsz3, hframe3, hperm3, hkd3⟩ := hso2
        set S3 := sort br S2 nodeSize ((left + right) / 2 + 1) right (depth + 1) with hS3
        -- values at the split position survive both recursive sorts
        have hvm : getC S3.Coords (2 * ((left + right) / 2) + depth % 2) =
            getC S1.Coords (2 * ((left + right) / 2) + depth % 2) := by
          have e1 : entryAt S3 ((left + right) / 2) = entryAt S2 ((left + right) / 2) :=
            hframe3 _ (by omega)
          have e2 : entryAt S2 ((left + right) / 2) = entryAt S1 ((left + right) / 2) :=
            hframe2 _ (by omega)
          rw [entry_val_eq S2 S3 _ _ _ hincd e1, entry_val_eq S1 S2 _ _ _ hincd e2]
        refine ⟨hWF3, hsz3, ?_, ?_, ?_⟩
        · intro p hp
          rw [hframe3 p (by omega), hframe2 p (by omega), hframe1 p (by omega) (by omega)]
        · exact hperm3.trans (hperm2.trans hperm1)
        · rw [kdOrdered, if_neg h1, if_neg h2]
          simp only [Bool.and_eq_true, List.all_eq_true, decide_eq_true_eq]
          refine ⟨⟨⟨?_, ?_⟩, ?_⟩, ?_⟩
          · intro p hp
            rw [mem_posList] at hp
            have e1 : entryAt S3 p = entryAt S2 p := hframe3 p (by omega)
            rw [entry_val_eq S2 S3 p p _ hincd e1, hvm]
            obtain ⟨q, hq1, hq2, _, _, hq5⟩ := segVal_transfer S1 S2 left
              ((left + right) / 2 - 1) (depth % 2) hincd (by rw [hsz2, hsz1])
              hperm2 (fun u u1 u2 u3 => hframe2 u u3) p hp.1 hp.2 (by omega)
              (by rw [hsz1]; omega)
            rw [hq5]
            exact hpartL q hq1 (by omega)
          · intro p hp
            rw [mem_posList] at hp
            obtain ⟨q, hq1, hq2, _, _, hq5⟩ := segVal_transfer S2 S3
              ((left + right) / 2 + 1) right (depth % 2) hincd (by rw [hsz3, hsz2])
              hperm3 (fun u u1 u2 u3 => hframe3 u u3) p hp.1 hp.2 (by omega)
              (by rw [hsz2]; omega)
            rw [hvm, hq5]
            have e2 : entryAt S2 q = entryAt S1 q := hframe2 q (by omega)
            rw [entry_val_eq S1 S2 q q _ hincd e2]
            exact hpartR q (by omega) hq2
          · have haxeq : ((depth % 2) + 1) % 2 = (depth + 1) % 2 := by omega
            rw [haxeq]
            rw [kdOrdered_congr S2 S3 nodeSize ((left + right) / 2 - 1 - left).toNat
              left ((left + right) / 2 - 1) ((depth + 1) % 2) (le_refl _) (by omega)
              (fun p hp1 hp2 => hframe3 p (by omega))]
            exact hkd2
          · have haxeq : ((depth % 2) + 1) % 2 = (depth + 1) % 2 := by omega
            rw [haxeq]
            exact hkd3

/-! ## The built index -/

/-- The two arrays of a built index, as a `Store`. -/
def bushStore (b : KDBush) : Store := ⟨b.Idxs, b.Coords⟩

theorem NewBush_store (br : Int → Int → Int → Int × Int) (pts : List Point) (ns : Int) :
    bushStore (NewBush br pts ns) =
      sort br ⟨initIdxs pts, initCoords pts⟩ ns 0 ((pts.length : Int) - 1) 0 := rfl

theorem NewBush_NodeSize (br : Int → Int → Int → Int × Int) (pts : List Point) (ns : Int) :
    (NewBush br pts ns).NodeSize = ns := rfl

theorem NewBush_Points (br : Int → Int → Int → Int × Int) (pts : List Point) (ns : Int) :
    (NewBush br pts ns).Points = pts := rfl

theorem initIdxs_size (pts : List Point) : (initIdxs pts).size = pts.length :=
  Array.size_range

theorem initCoords_size (pts : List Point) : (initCoords pts).size = 2 * pts.length :=
  Array.size_ofFn _

theorem WFS_init (pts : List Point) : WFS ⟨initIdxs pts, initCoords pts⟩ := by
  unfold WFS
  simp only
  rw [initIdxs_size, initCoords_size]

theorem entryAt_init (pts : List Point) (p : Nat) (hp : p < pts.length) :
    entryAt ⟨initIdxs pts, initCoords pts⟩ (p : Int) =
      (p, (pts.getD p (0, 0)).1, (pts.getD p (0, 0)).2) := by
  unfold entryAt getN getC
  simp only
  have h1 : (0 : Int) ≤ (p : Int) := by omega
  have h2 : (0 : Int) ≤ 2 * (p : Int) := by omega
  have h3 : (0 : Int) ≤ 2 * (p : Int) + 1 := by omega
  rw [if_pos h1, if_pos h2, if_pos h3]
  have e1 : ((p : Int)).toNat = p := by omega
  have e2 : (2 * (p : Int)).toNat = 2 * p := by omega
  have e3 : (2 * (p : Int) + 1).toNat = 2 * p + 1 := by omega
  rw [e1, e2, e3]
  unfold initIdxs initCoords Array.getD
  rw [dif_pos (by rw [Array.size_range]; exact hp),
    dif_pos (by rw [Array.size_ofFn]; omega),
    dif_pos (by rw [Array.size_ofFn]; omega)]
  rw [Array.get_eq_getElem, Array.get_eq_getElem, Array.get_eq_getElem]
  rw [Array.getElem_range, Array.getElem_ofFn, Array.getElem_ofFn]
  simp only
  rw [if_pos (by omega : 2 * p % 2 = 0), if_neg (by omega : ¬ (2 * p + 1) % 2 = 0)]
  have e4 : 2 * p / 2 = p := by omega
  have e5 : (2 * p + 1) / 2 = p := by omega
  rw [e4, e5]

/-- Everything C3/C4-shaped about a built index, in one place: sizes,
lockstep well-formedness, `Idxs` a permutation of `0..n−1`, the pairing
invariant, and the k-d partial order. -/
theorem NewBush_main (br : Int → Int → Int → Int × Int) (pts : List Point) (ns : Int) :
    (NewBush br pts ns).Idxs.size = pts.length ∧
    (NewBush br pts ns).Coords.size = 2 * pts.length ∧
    ((NewBush br pts ns).Idxs.toList).Perm (List.range pts.length) ∧
    (∀ p : Nat, p < pts.length →
      getN (NewBush br pts ns).Idxs (p : Int) < pts.length ∧
      getC (NewBush br pts ns).Coords (2 * (p : Int)) =
        (pts.getD (getN (NewBush br pts ns).Idxs (p : Int)) (0, 0)).1 ∧
      getC (NewBush br pts ns).Coords (2 * (p : Int) + 1) =
        (pts.getD (getN (NewBush br pts ns).Idxs (p : Int)) (0, 0)).2) ∧
    kdOrdered (bushStore (NewBush br pts ns)) ns 0 ((pts.length : Int) - 1) 0 = true := by
  have hsort := sort_main br pts.length ((pts.length : Int) - 1 - 0).toNat
    ⟨initIdxs pts, initCoords pts⟩ ns 0 ((pts.length : Int) - 1) 0 (le_refl _)
    (WFS_init pts) (initIdxs_size pts) (le_refl _) (by omega) (le_refl _)
  obtain ⟨hWF, hsz, hframe, hperm, hkd⟩ := hsort
  have hstore := NewBush_store br pts ns
  set S := sort br ⟨initIdxs pts, initCoords pts⟩ ns 0 ((pts.length : Int) - 1) 0 with hS
  have hIdxs : (NewBush br pts ns).Idxs = S.Idxs := congrArg Store.Idxs hstore
  have hCoords : (NewBush br pts ns).Coords = S.Coords := congrArg Store.Coords hstore
  have hsz2 : (NewBush br pts ns).Idxs.size = pts.length := by rw [hIdxs, hsz]
  have hcsz : (NewBush br pts ns).Coords.size = 2 * pts.length := by
    rw [hCoords]
    have h := hWF
    unfold WFS at h
    rw [h, hsz]
  -- membership transfer of records
  have hentry : ∀ p : Nat, p < pts.length → ∃ q : Nat, q < pts.length ∧
      entryAt S (p : Int) = (q, (pts.getD q (0, 0)).1, (pts.getD q (0, 0)).2) := by
    intro p hp
    have hmem : entryAt S (p : Int) ∈ entriesList S := by
      have hlen : p < (entriesList S).length := by rw [entriesList_length, hsz]; exact hp
      have := entriesList_getElem S p hlen
      rw [← this]
      exact List.getElem_mem _
    have hmem2 : entryAt S (p : Int) ∈ entriesList ⟨initIdxs pts, initCoords pts⟩ :=
      hperm.mem_iff.mp hmem
    unfold entriesList at hmem2
    rw [List.mem_map] at hmem2
    obtain ⟨q, hq1, hq2⟩ := hmem2
    rw [List.mem_range] at hq1
    refine ⟨q, by rw [initIdxs_size] at hq1; exact hq1, ?_⟩
    rw [← hq2, entryAt_init pts q (by rw [initIdxs_size] at hq1; exact hq1)]
  refine ⟨hsz2, hcsz, ?_, ?_, ?_⟩
  · -- Idxs is a permutation of the range
    have hfst : ((entriesList S).map fun e => e.1).Perm
        ((entriesList ⟨initIdxs pts, initCoords pts⟩).map fun e => e.1) := hperm.map _
    have hl1 : (entriesList S).map (fun e => e.1) = S.Idxs.toList := by
      unfold entriesList
      rw [List.map_map]
      apply List.ext_getElem
      · simp only [List.length_map, List.length_range, Array.length_toList]
      · intro q h1 h2
        simp only [List.getElem_map, List.getElem_range, Function.comp]
        simp only [List.length_map, List.length_range] at h1
        show getN S.Idxs (q : Int) = S.Idxs.toList[q]
        rw [Array.getElem_toList]
        unfold getN Array.getD
        rw [if_pos (by omega), dif_pos (show ((q : Int)).toNat < S.Idxs.size by omega)]
        simp only [Int.toNat_natCast, Array.get_eq_getElem]
    have hl2 : (entriesList ⟨initIdxs pts, initCoords pts⟩).map (fun e => e.1) =
        List.range pts.length := by
      unfold entriesList
      rw [List.map_map]
      apply List.ext_getElem
      · simp only [List.length_map, List.length_range]
        rw [initIdxs_size]
      · intro q h1 h2
        simp only [List.getElem_map, List.getElem_range, Function.comp]
        simp only [List.length_map, List.length_range] at h1
        have h1' : q < pts.length := by
          have h7 : (Store.mk (initIdxs pts) (initCoords pts)).Idxs.size = pts.length :=
            initIdxs_size pts
          rw [h7] at h1
          exact h1
        rw [entryAt_init pts q h1']
    rw [hl1, hl2] at hfst
    rw [hIdxs]
    exact hfst
  · intro p hp
    obtain ⟨q, hq1, hq2⟩ := hentry p hp
    have e1 : getN (NewBush br pts ns).Idxs (p : Int) = q := by
      rw [hIdxs]
      exact congrArg (fun e => e.1) hq2
    have e2 : getC (NewBush br pts ns).Coords (2 * (p : Int)) = (pts.getD q (0, 0)).1 := by
      rw [hCoords]
      exact congrArg (fun e => e.2.1) hq2
    have e3 : getC (NewBush br pts ns).Coords (2 * (p : Int) + 1) = (pts.getD q (0, 0)).2 := by
      rw [hCoords]
      exact congrArg (fun e => e.2.2) hq2
    rw [e1, e2, e3]
    exact ⟨hq1, rfl, rfl⟩
  · rw [hstore]
    exact hkd

/-! ## Query traversal: generic spec-side recursion -/

/-- The recursive view of both query loops: leaves are scanned, inner nodes
test position `m` and descend into the children the push conditions allow
(the right child first, matching the LIFO order of the source's stack). -/
def travGo (b : KDBush) (P : Int → Prop) [DecidablePred P]
    (pushL pushR : Int → Int → Prop)
    [∀ a m, Decidable (pushL a m)] [∀ a m, Decidable (pushR a m)]
    (left right axis : Int) : List Nat :=
  if right - left ≤ b.NodeSize then
    ((posList left right).filter fun p => decide (P p)).map fun p => getN b.Idxs p
  else if right ≤ left then []
  else
    (if P ((left + right) / 2) then [getN b.Idxs ((left + right) / 2)] else []) ++
    ((if pushR axis ((left + right) / 2) then
        travGo b P pushL pushR ((left + right) / 2 + 1) right ((axis + 1) % 2)
      else []) ++
      (if pushL axis ((left + right) / 2) then
        travGo b P pushL pushR left ((left + right) / 2 - 1) ((axis + 1) % 2)
      else []))
termination_by (right + 1 - left).toNat
decreasing_by all_goals omega

theorem posList_split (left right m : Int) (h1 : left ≤ m) (h2 : m ≤ right) :
    posList left right = posList left (m - 1) ++ m :: posList (m + 1) right := by
  have main : ∀ N : Nat, ∀ l : Int, (m - l).toNat ≤ N → l ≤ m →
      posList l right = posList l (m - 1) ++ m :: posList (m + 1) right := by
    intro N
    induction N with
    | zero =>
      intro l hN hlm
      have he : l = m := by omega
      subst he
      conv_lhs => rw [posList, if_pos (show l ≤ right by omega)]
      rw [show posList l (l - 1) = [] from by rw [posList, if_neg (by omega)],
        List.nil_append]
    | succ N ih =>
      intro l hN hlm
      rcases eq_or_lt_of_le hlm with he | hlt
      · subst he
        conv_lhs => rw [posList, if_pos (show l ≤ right by omega)]
        rw [show posList l (l - 1) = [] from by rw [posList, if_neg (by omega)],
          List.nil_append]
      · conv_lhs => rw [posList, if_pos (show l ≤ right by omega)]
        conv_rhs => rw [posList, if_pos (show l ≤ m - 1 by omega)]
        rw [List.cons_append, ih (l + 1) (by omega) (by omega)]
  exact main (m - left).toNat left (le_refl _) h1

/-- Correctness of the generic traversal: under the k-d partial order and
soundness of the two pruning tests, the traversal collects exactly the
positions satisfying `P` (as a permutation of the in-order scan). -/
theorem travGo_perm (b : KDBush) (P : Int → Prop) [DecidablePred P]
    (pushL pushR : Int → Int → Prop)
    [∀ a m, Decidable (pushL a m)] [∀ a m, Decidable (pushR a m)]
    (hL : ∀ axis m p, (axis = 0 ∨ axis = 1) → ¬ pushL axis m →
      getC b.Coords (2 * p + axis) ≤ getC b.Coords (2 * m + axis) → ¬ P p)
    (hR : ∀ axis m p, (axis = 0 ∨ axis = 1) → ¬ pushR axis m →
      getC b.Coords (2 * m + axis) ≤ getC b.Coords (2 * p + axis) → ¬ P p)
    (hns : 0 ≤ b.NodeSize) :
    ∀ N : Nat, ∀ left right axis : Int, (right + 1 - left).toNat ≤ N →
    (axis = 0 ∨ axis = 1) →
    kdOrdered (bushStore b) b.NodeSize left right axis = true →
    (travGo b P pushL pushR left right axis).Perm
      (((posList left right).filter fun p => decide (P p)).map fun p => getN b.Idxs p) := by
  intro N
  induction N with
  | zero =>
    intro left right axis hN haxis hkd
    by_cases h1 : right - left ≤ b.NodeSize
    · rw [travGo, if_pos h1]
    · exact absurd (show right - left ≤ b.NodeSize by omega) h1
  | succ N ih =>
    intro left right axis hN haxis hkd
    by_cases h1 : right - left ≤ b.NodeSize
    · rw [travGo, if_pos h1]
    · by_cases h2 : right ≤ left
      · exact absurd (show right - left ≤ b.NodeSize by omega) h1
      · rw [travGo, if_neg h1, if_neg h2]
        rw [kdOrdered, if_neg h1, if_neg h2] at hkd
        simp only [Bool.and_eq_true, List.all_eq_true, decide_eq_true_eq, bushStore,
          mem_posList] at hkd
        obtain ⟨⟨⟨kall1, kall2⟩, kd1⟩, kd2⟩ := hkd
        have hRpart : (if pushR axis ((left + right) / 2) then
            travGo b P pushL pushR ((left + right) / 2 + 1) right ((axis + 1) % 2)
          else []).Perm
            (((posList ((left + right) / 2 + 1) right).filter fun p => decide (P p)).map
              fun p => getN b.Idxs p) := by
          by_cases hp : pushR axis ((left + right) / 2)
          · rw [if_pos hp]
            exact ih ((left + right) / 2 + 1) right ((axis + 1) % 2) (by omega) (by omega) kd2
          · rw [if_neg hp]
            have hfil : (posList ((left + right) / 2 + 1) right).filter
                (fun p => decide (P p)) = [] := by
              rw [List.filter_eq_nil]
              intro p hmem
              rw [mem_posList] at hmem
              simp only [decide_eq_true_eq]
              exact hR axis ((left + right) / 2) p haxis hp
                (kall2 p ⟨hmem.1, hmem.2⟩)
            rw [hfil]
            exact List.Perm.refl _
        have hLpart : (if pushL axis ((left + right) / 2) then
            travGo b P pushL pushR left ((left + right) / 2 - 1) ((axis + 1) % 2)
          else []).Perm
            (((posList left ((left + right) / 2 - 1)).filter fun p => decide (P p)).map
              fun p => getN b.Idxs p) := by
          by_cases hp : pushL axis ((left + right) / 2)
          · rw [if_pos hp]
            exact ih left ((left + right) / 2 - 1) ((axis + 1) % 2) (by omega) (by omega) kd1
          · rw [if_neg hp]
            have hfil : (posList left ((left + right) / 2 - 1)).filter
                (fun p => decide (P p)) = [] := by
              rw [List.filter_eq_nil]
              intro p hmem
              rw [mem_posList] at hmem
              simp only [decide_eq_true_eq]
              exact hL axis ((left + right) / 2) p haxis hp
                (kall1 p ⟨hmem.1, hmem.2⟩)
            rw [hfil]
            exact List.Perm.refl _
        rw [posList_split left right ((left + right) / 2) (by omega) (by omega)]
        rw [List.filter_append, List.filter_cons, List.map_append]
        set A := ((posList left ((left + right) / 2 - 1)).filter fun p => decide (P p)).map
          (fun p => getN b.Idxs p) with hA
        set B := ((posList ((left + right) / 2 + 1) right).filter fun p => decide (P p)).map
          (fun p => getN b.Idxs p) with hB
        set mC := if P ((left + right) / 2) then [getN b.Idxs ((left + right) / 2)] else []
          with hmC
        have hmid : (List.map (fun p => getN b.Idxs p)
            (if decide (P ((left + right) / 2)) = true then
              (left + right) / 2 :: List.filter (fun p => decide (P p))
                (posList ((left + right) / 2 + 1) right)
            else List.filter (fun p => decide (P p))
              (posList ((left + right) / 2 + 1) right))) = mC ++ B := by
          by_cases hPm : P ((left + right) / 2)
          · rw [if_pos (by simpa using hPm), hmC, if_pos hPm, List.map_cons]
            rfl
          · rw [if_neg (by simpa using hPm), hmC, if_neg hPm, List.nil_append]
        rw [hmid]
        have t1 : (mC ++ ((if pushR axis ((left + right) / 2) then
            travGo b P pushL pushR ((left + right) / 2 + 1) right ((axis + 1) % 2)
          else []) ++
          (if pushL axis ((left + right) / 2) then
            travGo b P pushL pushR left ((left + right) / 2 - 1) ((axis + 1) % 2)
          else []))).Perm (mC ++ (B ++ A)) :=
          List.Perm.append_left mC (hRpart.append hLpart)
        have t2 : (mC ++ (B ++ A)).Perm (mC ++ (A ++ B)) :=
          List.Perm.append_left mC List.perm_append_comm
        have t3 : (mC ++ (A ++ B)).Perm (A ++ (mC ++ B)) := by
          have h := List.Perm.append_right B (@List.perm_append_comm _ mC A)
          simpa [List.append_assoc] using h
        exact (t1.trans t2).trans t3

/-! ## The two query engines as instances of the generic traversal -/

/-- The box membership test of `Range`, at tree position `p`. -/
abbrev boxP (b : KDBush) (minX minY maxX maxY : ℚ) (p : Int) : Prop :=
  getC b.Coords (2 * p) ≥ minX ∧ getC b.Coords (2 * p) ≤ maxX ∧
    getC b.Coords (2 * p + 1) ≥ minY ∧ getC b.Coords (2 * p + 1) ≤ maxY

/-- The left-child push condition of `Range`. -/
abbrev rangePushL (b : KDBush) (minX minY : ℚ) (axis m : Int) : Prop :=
  (axis = 0 ∧ minX ≤ getC b.Coords (2 * m)) ∨ (axis ≠ 0 ∧ minY ≤ getC b.Coords (2 * m + 1))

/-- The right-child push condition of `Range`. -/
abbrev rangePushR (b : KDBush) (maxX maxY : ℚ) (axis m : Int) : Prop :=
  (axis = 0 ∧ maxX ≥ getC b.Coords (2 * m)) ∨ (axis ≠ 0 ∧ maxY ≥ getC b.Coords (2 * m + 1))

/-- The squared-distance membership test of `Within`, at tree position `p`. -/
abbrev circP (b : KDBush) (qx qy r2 : ℚ) (p : Int) : Prop :=
  sqrtDist (getC b.Coords (2 * p)) (getC b.Coords (2 * p + 1)) qx qy ≤ r2

/-- The left-child push condition of `Within`. -/
abbrev withinPushL (b : KDBush) (qx qy radius : ℚ) (axis m : Int) : Prop :=
  (axis = 0 ∧ qx - radius ≤ getC b.Coords (2 * m)) ∨
    (axis ≠ 0 ∧ qy - radius ≤ getC b.Coords (2 * m + 1))

/-- The right-child push condition of `Within`. -/
abbrev withinPushR (b : KDBush) (qx qy radius : ℚ) (axis m : Int) : Prop :=
  (axis = 0 ∧ qx + radius ≥ getC b.Coords (2 * m)) ∨
    (axis ≠ 0 ∧ qy + radius ≥ getC b.Coords (2 * m + 1))

theorem posList_length (left right : Int) : (posList left right).length = (right + 1 - left).toNat := by
  have main : ∀ N : Nat, ∀ l : Int, (right + 1 - l).toNat ≤ N →
      (posList l right).length = (right + 1 - l).toNat := by
    intro N
    induction N with
    | zero =>
      intro l hN
      rw [posList, if_neg (by omega)]
      simp only [List.length_nil]
      omega
    | succ N ih =>
      intro l hN
      by_cases hlr : l ≤ right
      · rw [posList, if_pos hlr, List.length_cons, ih (l + 1) (by omega)]
        omega
      · rw [posList, if_neg hlr]
        simp only [List.length_nil]
        omega
  exact main (right + 1 - left).toNat left (le_refl _)

theorem rangeScan_eq (b : KDBush) (minX minY maxX maxY : ℚ) :
    ∀ N : Nat, ∀ i right : Int, (right + 1 - i).toNat ≤ N →
    rangeScan b minX minY maxX maxY i right =
      ((posList i right).filter fun p => decide (boxP b minX minY maxX maxY p)).map
        fun p => getN b.Idxs p := by
  intro N
  induction N with
  | zero =>
    intro i right hN
    rw [rangeScan, if_neg (by omega), posList, if_neg (by omega)]
    rfl
  | succ N ih =>
    intro i right hN
    by_cases hir : i ≤ right
    · rw [rangeScan, if_pos hir, posList, if_pos hir, List.filter_cons,
        ih (i + 1) right (by omega)]
      by_cases hb : boxP b minX minY maxX maxY i
      · rw [if_pos hb, if_pos (by simpa using hb), List.map_cons]
        rfl
      · rw [if_neg hb, if_neg (by simpa using hb), List.nil_append]
    · rw [rangeScan, if_neg hir, posList, if_neg hir]
      rfl

theorem withinScan_eq (b : KDBush) (qx qy r2 : ℚ) :
    ∀ N : Nat, ∀ i right : Int, (right + 1 - i).toNat ≤ N →
    withinScan b qx qy r2 i right =
      ((posList i right).filter fun p => decide (circP b qx qy r2 p)).map
        fun p => getN b.Idxs p := by
  intro N
  induction N with
  | zero =>
    intro i right hN
    rw [withinScan, if_neg (by omega), posList, if_neg (by omega)]
    rfl
  | succ N ih =>
    intro i right hN
    by_cases hir : i ≤ right
    · rw [withinScan, if_pos hir, posList, if_pos hir, List.filter_cons,
        ih (i + 1) right (by omega)]
      by_cases hb : circP b qx qy r2 i
      · rw [if_pos hb, if_pos (by simpa using hb), List.map_cons]
        rfl
      · rw [if_neg hb, if_neg (by simpa using hb), List.nil_append]
    · rw [withinScan, if_neg hir, posList, if_neg hir]
      rfl

theorem rangeLoop_eq (b : KDBush) (minX minY maxX maxY : ℚ) (hns : 0 ≤ b.NodeSize) :
    ∀ N : Nat, ∀ (stack : List (Int × Int × Int)) (result : List Nat),
    stackWeight stack ≤ N →
    rangeLoop b minX minY maxX maxY stack result =
      result ++ (stack.map fun f =>
        travGo b (boxP b minX minY maxX maxY) (rangePushL b minX minY)
          (rangePushR b maxX maxY) f.1 f.2.1 f.2.2).join := by
  intro N
  induction N with
  | zero =>
    intro stack result hN
    cases stack with
    | nil => simp [rangeLoop]
    | cons f rest =>
      obtain ⟨l, r, ax⟩ := f
      exfalso
      simp only [stackWeight] at hN
      omega
  | succ N ih =>
    intro stack result hN
    cases stack with
    | nil => simp [rangeLoop]
    | cons f rest =>
      obtain ⟨l, r, ax⟩ := f
      simp only [stackWeight] at hN
      by_cases h1 : r - l ≤ b.NodeSize
      · simp only [rangeLoop]
        rw [if_pos h1, ih rest _ (by omega)]
        simp only [List.map_cons, List.join]
        conv_rhs => rw [travGo, if_pos h1]
        rw [← rangeScan_eq b minX minY maxX maxY (r + 1 - l).toNat l r (le_refl _)]
        simp [List.append_assoc]
      · by_cases h2 : r ≤ l
        · exact absurd (show r - l ≤ b.NodeSize by omega) h1
        · simp only [rangeLoop]
          rw [if_neg h1, if_neg h2]
          simp only [List.map_cons, List.join]
          conv_rhs => rw [travGo, if_neg h1, if_neg h2]
          by_cases hR : (ax = 0 ∧ maxX ≥ getC b.Coords (2 * ((l + r) / 2))) ∨
              (ax ≠ 0 ∧ maxY ≥ getC b.Coords (2 * ((l + r) / 2) + 1))
          · rw [if_pos hR, if_pos hR]
            by_cases hL : (ax = 0 ∧ minX ≤ getC b.Coords (2 * ((l + r) / 2))) ∨
                (ax ≠ 0 ∧ minY ≤ getC b.Coords (2 * ((l + r) / 2) + 1))
            · rw [if_pos hL, if_pos hL, ih _ _ (by simp only [stackWeight]; omega)]
              simp only [List.map_cons, List.join]
              by_cases hbox : getC b.Coords (2 * ((l + r) / 2)) ≥ minX ∧
                  getC b.Coords (2 * ((l + r) / 2)) ≤ maxX ∧
                  getC b.Coords (2 * ((l + r) / 2) + 1) ≥ minY ∧
                  getC b.Coords (2 * ((l + r) / 2) + 1) ≤ maxY
              · rw [if_pos hbox, if_pos hbox]
                simp [List.append_assoc]
              · rw [if_neg hbox, if_neg hbox]
                simp [List.append_assoc]
            · rw [if_neg hL, if_neg hL, ih _ _ (by simp only [stackWeight]; omega)]
              simp only [List.map_cons, List.join]
              by_cases hbox : getC b.Coords (2 * ((l + r) / 2)) ≥ minX ∧
                  getC b.Coords (2 * ((l + r) / 2)) ≤ maxX ∧
                  getC b.Coords (2 * ((l + r) / 2) + 1) ≥ minY ∧
                  getC b.Coords (2 * ((l + r) / 2) + 1) ≤ maxY
              · rw [if_pos hbox, if_pos hbox]
                simp [List.append_assoc]
              · rw [if_neg hbox, if_neg hbox]
                simp [List.append_assoc]
          · rw [if_neg hR, if_neg hR]
            by_cases hL : (ax = 0 ∧ minX ≤ getC b.Coords (2 * ((l + r) / 2))) ∨
                (ax ≠ 0 ∧ minY ≤ getC b.Coords (2 * ((l + r) / 2) + 1))
            · rw [if_pos hL, if_pos hL, ih _ _ (by simp only [stackWeight]; omega)]
              simp only [List.map_cons, List.join]
              by_cases hbox : getC b.Coords (2 * ((l + r) / 2)) ≥ minX ∧
                  getC b.Coords (2 * ((l + r) / 2)) ≤ maxX ∧
                  getC b.Coords (2 * ((l + r) / 2) + 1) ≥ minY ∧
                  getC b.Coords (2 * ((l + r) / 2) + 1) ≤ maxY
              · rw [if_pos hbox, if_pos hbox]
                simp [List.append_assoc]
              · rw [if_neg hbox, if_neg hbox]
                simp [List.append_assoc]
            · rw [if_neg hL, if_neg hL, ih _ _ (by omega)]
              by_cases hbox : getC b.Coords (2 * ((l + r) / 2)) ≥ minX ∧
                  getC b.Coords (2 * ((l + r) / 2)) ≤ maxX ∧
                  getC b.Coords (2 * ((l + r) / 2) + 1) ≥ minY ∧
                  getC b.Coords (2 * ((l + r) / 2) + 1) ≤ maxY
              · rw [if_pos hbox, if_pos hbox]
                simp [List.append_assoc]
              · rw [if_neg hbox, if_neg hbox]
                simp [List.append_assoc]

theorem withinLoop_eq (b : KDBush) (qx qy radius r2 : ℚ) (hns : 0 ≤ b.NodeSize) :
    ∀ N : Nat, ∀ (stack : List (Int × Int × Int)) (result : List Nat),
    stackWeight stack ≤ N →
    withinLoop b qx qy radius r2 stack result =
      result ++ (stack.map fun f =>
        travGo b (circP b qx qy r2) (withinPushL b qx qy radius)
          (withinPushR b qx qy radius) f.1 f.2.1 f.2.2).join := by
  intro N
  induction N with
  | zero =>
    intro stack result hN
    cases stack with
    | nil => simp [withinLoop]
    | cons f rest =>
      obtain ⟨l, r, ax⟩ := f
      exfalso
      simp only [stackWeight] at hN
      omega
  | succ N ih =>
    intro stack result hN
    cases stack with
    | nil => simp [withinLoop]
    | cons f rest =>
      obtain ⟨l, r, ax⟩ := f
      simp only [stackWeight] at hN
      by_cases h1 : r - l ≤ b.NodeSize
      · simp only [withinLoop]
        rw [if_pos h1, ih rest _ (by omega)]
        simp only [List.map_cons, List.join]
        conv_rhs => rw [travGo, if_pos h1]
        rw [← withinScan_eq b qx qy r2 (r + 1 - l).toNat l r (le_refl _)]
        simp [List.append_assoc]
      · by_cases h2 : r ≤ l
        · exact absurd (show r - l ≤ b.NodeSize by omega) h1
        · simp only [withinLoop]
          rw [if_neg h1, if_neg h2]
          simp only [List.map_cons, List.join]
          conv_rhs => rw [travGo, if_neg h1, if_neg h2]
          by_cases hR : (ax = 0 ∧ qx + radius ≥ getC b.Coords (2 * ((l + r) / 2))) ∨
              (ax ≠ 0 ∧ qy + radius ≥ getC b.Coords (2 * ((l + r) / 2) + 1))
          · rw [if_pos hR, if_pos hR]
            by_cases hL : (ax = 0 ∧ qx - radius ≤ getC b.Coords (2 * ((l + r) / 2))) ∨
                (ax ≠ 0 ∧ qy - radius ≤ getC b.Coords (2 * ((l + r) / 2) + 1))
            · rw [if_pos hL, if_pos hL, ih _ _ (by simp only [stackWeight]; omega)]
              simp only [List.map_cons, List.join]
              by_cases hbox : sqrtDist (getC b.Coords (2 * ((l + r) / 2)))
                  (getC b.Coords (2 * ((l + r) / 2) + 1)) qx qy ≤ r2
              · rw [if_pos hbox, if_pos hbox]
                simp [List.append_assoc]
              · rw [if_neg hbox, if_neg hbox]
                simp [List.append_assoc]
            · rw [if_neg hL, if_neg hL, ih _ _ (by simp only [stackWeight]; omega)]
              simp only [List.map_cons, List.join]
              by_cases hbox : sqrtDist (getC b.Coords (2 * ((l + r) / 2)))
                  (getC b.Coords (2 * ((l + r) / 2) + 1)) qx qy ≤ r2
              · rw [if_pos hbox, if_pos hbox]
                simp [List.append_assoc]
              · rw [if_neg hbox, if_neg hbox]
                simp [List.append_assoc]
          · rw [if_neg hR, if_neg hR]
            by_cases hL : (ax = 0 ∧ qx - radius ≤ getC b.Coords (2 * ((l + r) / 2))) ∨
                (ax ≠ 0 ∧ qy - radius ≤ getC b.Coords (2 * ((l + r) / 2) + 1))
            · rw [if_pos hL, if_pos hL, ih _ _ (by simp only [stackWeight]; omega)]
              simp only [List.map_cons, List.join]
              by_cases hbox : sqrtDist (getC b.Coords (2 * ((l + r) / 2)))
                  (getC b.Coords (2 * ((l + r) / 2) + 1)) qx qy ≤ r2
              · rw [if_pos hbox, if_pos hbox]
                simp [List.append_assoc]
              · rw [if_neg hbox, if_neg hbox]
                simp [List.append_assoc]
            · rw [if_neg hL, if_neg hL, ih _ _ (by omega)]
              by_cases hbox : sqrtDist (getC b.Coords (2 * ((l + r) / 2)))
                  (getC b.Coords (2 * ((l + r) / 2) + 1)) qx qy ≤ r2
              · rw [if_pos hbox, if_pos hbox]
                simp [List.append_assoc]
              · rw [if_neg hbox, if_neg hbox]
                simp [List.append_assoc]

theorem map_filter_comm (f : Int → Nat) (p : Int → Bool) (q : Nat → Bool) :
    ∀ l : List Int, (∀ x ∈ l, p x = q (f x)) →
    (l.filter p).map f = (l.map f).filter q := by
  intro l
  induction l with
  | nil => intro _; rfl
  | cons a t ih =>
    intro h
    rw [List.filter_cons, List.map_cons, List.filter_cons, h a (List.mem_cons_self a t)]
    by_cases hq : q (f a) = true
    · rw [if_pos hq, if_pos hq, List.map_cons,
        ih fun x hx => h x (List.mem_cons_of_mem a hx)]
    · rw [if_neg hq, if_neg hq, ih fun x hx => h x (List.mem_cons_of_mem a hx)]

theorem posList_map_getN (a : Array Nat) (n : Nat) (hsz : a.size = n) :
    (posList 0 ((n : Int) - 1)).map (fun p => getN a p) = a.toList := by
  have main : ∀ N : Nat, ∀ k : Nat, n - k ≤ N →
      (posList (k : Int) ((n : Int) - 1)).map (fun p => getN a p) = a.toList.drop k := by
    intro N
    induction N with
    | zero =>
      intro k hN
      rw [posList, if_neg (by omega), List.map_nil,
        Eq.symm (List.drop_eq_nil_of_le (by show a.size ≤ k; omega))]
    | succ N ih =>
      intro k hk
      by_cases hkn : k < n
      · rw [posList, if_pos (by omega), List.map_cons,
          show (k : Int) + 1 = ((k + 1 : Nat) : Int) by omega, ih (k + 1) (by omega)]
        have hlt : k < a.toList.length := by show k < a.size; omega
        rw [List.drop_eq_getElem_cons hlt]
        congr 1
        show getN a (k : Int) = a.toList[k]
        rw [getN, if_pos (by omega), show ((k : Int)).toNat = k by omega]
        simp [Array.getD, show k < a.size by omega]
      · rw [posList, if_neg (by omega), List.map_nil,
          Eq.symm (List.drop_eq_nil_of_le (by show a.size ≤ k; omega))]
  simpa using main n 0 (by omega)

theorem Range_perm (br : Int → Int → Int → Int × Int) (pts : List Point) (ns : Int)
    (minX minY maxX maxY : ℚ) (hns : 0 ≤ ns) :
    ((NewBush br pts ns).Range minX minY maxX maxY).Perm
      (bruteRange pts minX minY maxX maxY) := by
  obtain ⟨hsz, hcsz, hperm, hpair, hkd⟩ := NewBush_main br pts ns
  have hns0 : (0 : Int) ≤ (NewBush br pts ns).NodeSize := by
    rw [NewBush_NodeSize]; omega
  have h1 : (NewBush br pts ns).Range minX minY maxX maxY =
      travGo (NewBush br pts ns) (boxP (NewBush br pts ns) minX minY maxX maxY)
        (rangePushL (NewBush br pts ns) minX minY)
        (rangePushR (NewBush br pts ns) maxX maxY)
        0 (((NewBush br pts ns).Idxs.size : Int) - 1) 0 := by
    rw [KDBush.Range, rangeLoop_eq (NewBush br pts ns) minX minY maxX maxY hns0
      (stackWeight [(0, ((NewBush br pts ns).Idxs.size : Int) - 1, 0)]) _ _ (le_refl _)]
    simp
  have hL : ∀ axis m p, (axis = 0 ∨ axis = 1) →
      ¬ rangePushL (NewBush br pts ns) minX minY axis m →
      getC (NewBush br pts ns).Coords (2 * p + axis) ≤
        getC (NewBush br pts ns).Coords (2 * m + axis) →
      ¬ boxP (NewBush br pts ns) minX minY maxX maxY p := by
    intro axis m p haxis hpush hle hbox
    rcases haxis with h0 | h1
    · subst h0
      simp only [add_zero] at hle
      exact hpush (Or.inl ⟨rfl, le_trans hbox.1 hle⟩)
    · subst h1
      exact hpush (Or.inr ⟨by omega, le_trans hbox.2.2.1 hle⟩)
  have hR : ∀ axis m p, (axis = 0 ∨ axis = 1) →
      ¬ rangePushR (NewBush br pts ns) maxX maxY axis m →
      getC (NewBush br pts ns).Coords (2 * m + axis) ≤
        getC (NewBush br pts ns).Coords (2 * p + axis) →
      ¬ boxP (NewBush br pts ns) minX minY maxX maxY p := by
    intro axis m p haxis hpush hle hbox
    rcases haxis with h0 | h1
    · subst h0
      simp only [add_zero] at hle
      exact hpush (Or.inl ⟨rfl, le_trans hle hbox.2.1⟩)
    · subst h1
      exact hpush (Or.inr ⟨by omega, le_trans hle hbox.2.2.2⟩)
  have hkd' : kdOrdered (bushStore (NewBush br pts ns)) (NewBush br pts ns).NodeSize
      0 (((NewBush br pts ns).Idxs.size : Int) - 1) 0 = true := by
    rw [NewBush_NodeSize, hsz]
    exact hkd
  have h2 := travGo_perm (NewBush br pts ns) (boxP (NewBush br pts ns) minX minY maxX maxY)
    (rangePushL (NewBush br pts ns) minX minY) (rangePushR (NewBush br pts ns) maxX maxY)
    hL hR hns0 ((((NewBush br pts ns).Idxs.size : Int) - 1) + 1 - 0).toNat
    0 (((NewBush br pts ns).Idxs.size : Int) - 1) 0 (le_refl _) (Or.inl rfl) hkd'
  have h3 : ((posList 0 (((NewBush br pts ns).Idxs.size : Int) - 1)).filter
        fun x => decide (boxP (NewBush br pts ns) minX minY maxX maxY x)).map
          (fun x => getN (NewBush br pts ns).Idxs x) =
      ((NewBush br pts ns).Idxs.toList).filter fun i =>
        decide (minX ≤ (pts.getD i (0, 0)).1 ∧ (pts.getD i (0, 0)).1 ≤ maxX ∧
          minY ≤ (pts.getD i (0, 0)).2 ∧ (pts.getD i (0, 0)).2 ≤ maxY) := by
    rw [map_filter_comm _ _ _ _ ?hcong, hsz, posList_map_getN _ _ hsz]
    case hcong =>
      intro x hx
      rw [mem_posList] at hx
      have hxn : x = ((x.toNat : Nat) : Int) := by omega
      have hxlt : x.toNat < pts.length := by
        rw [hsz] at hx; omega
      obtain ⟨hi, hcx, hcy⟩ := hpair x.toNat hxlt
      apply decide_eq_decide.mpr
      simp only [boxP]
      rw [hxn, hcx, hcy]
  have h4 : bruteRange pts minX minY maxX maxY =
      (List.range pts.length).filter fun i =>
        decide (minX ≤ (pts.getD i (0, 0)).1 ∧ (pts.getD i (0, 0)).1 ≤ maxX ∧
          minY ≤ (pts.getD i (0, 0)).2 ∧ (pts.getD i (0, 0)).2 ≤ maxY) := rfl
  rw [h1, h4]
  exact (h2.trans (by rw [h3])).trans (hperm.filter _)

theorem Within_perm (br : Int → Int → Int → Int × Int) (pts : List Point) (ns : Int)
    (point : Point) (radius : ℚ) (hns : 0 ≤ ns) (hrad : 0 ≤ radius) :
    ((NewBush br pts ns).Within point radius).Perm
      (bruteWithin pts point.1 point.2 radius) := by
  obtain ⟨hsz, hcsz, hperm, hpair, hkd⟩ := NewBush_main br pts ns
  have hns0 : (0 : Int) ≤ (NewBush br pts ns).NodeSize := by
    rw [NewBush_NodeSize]; omega
  have h1 : (NewBush br pts ns).Within point radius =
      travGo (NewBush br pts ns)
        (circP (NewBush br pts ns) point.1 point.2 (radius * radius))
        (withinPushL (NewBush br pts ns) point.1 point.2 radius)
        (withinPushR (NewBush br pts ns) point.1 point.2 radius)
        0 (((NewBush br pts ns).Idxs.size : Int) - 1) 0 := by
    rw [KDBush.Within, withinLoop_eq (NewBush br pts ns) point.1 point.2 radius
      (radius * radius) hns0
      (stackWeight [(0, ((NewBush br pts ns).Idxs.size : Int) - 1, 0)]) _ _ (le_refl _)]
    simp
  have hL : ∀ axis m p, (axis = 0 ∨ axis = 1) →
      ¬ withinPushL (NewBush br pts ns) point.1 point.2 radius axis m →
      getC (NewBush br pts ns).Coords (2 * p + axis) ≤
        getC (NewBush br pts ns).Coords (2 * m + axis) →
      ¬ circP (NewBush br pts ns) point.1 point.2 (radius * radius) p := by
    intro axis m p haxis hpush hle hcirc
    simp only [circP, sqrtDist] at hcirc
    rcases haxis with h0 | h1
    · subst h0
      simp only [add_zero] at hle
      apply hpush
      left
      refine ⟨rfl, ?_⟩
      by_contra hgt
      push_neg at hgt
      nlinarith [mul_self_nonneg (getC (NewBush br pts ns).Coords (2 * p + 1) - point.2),
        mul_pos
          (show (0:ℚ) < point.1 - getC (NewBush br pts ns).Coords (2 * p) - radius by
            linarith)
          (show (0:ℚ) < point.1 - getC (NewBush br pts ns).Coords (2 * p) + radius by
            linarith)]
    · subst h1
      apply hpush
      right
      refine ⟨by omega, ?_⟩
      by_contra hgt
      push_neg at hgt
      nlinarith [mul_self_nonneg (getC (NewBush br pts ns).Coords (2 * p) - point.1),
        mul_pos
          (show (0:ℚ) < point.2 - getC (NewBush br pts ns).Coords (2 * p + 1) - radius by
            linarith)
          (show (0:ℚ) < point.2 - getC (NewBush br pts ns).Coords (2 * p + 1) + radius by
            linarith)]
  have hR : ∀ axis m p, (axis = 0 ∨ axis = 1) →
      ¬ withinPushR (NewBush br pts ns) point.1 point.2 radius axis m →
      getC (NewBush br pts ns).Coords (2 * m + axis) ≤
        getC (NewBush br pts ns).Coords (2 * p + axis) →
      ¬ circP (NewBush br pts ns) point.1 point.2 (radius * radius) p := by
    intro axis m p haxis hpush hle hcirc
    simp only [circP, sqrtDist] at hcirc
    rcases haxis with h0 | h1
    · subst h0
      simp only [add_zero] at hle
      apply hpush
      left
      refine ⟨rfl, ?_⟩
      by_contra hgt
      push_neg at hgt
      nlinarith [mul_self_nonneg (getC (NewBush br pts ns).Coords (2 * p + 1) - point.2),
        mul_pos
          (show (0:ℚ) < getC (NewBush br pts ns).Coords (2 * p) - point.1 - radius by
            linarith)
          (show (0:ℚ) < getC (NewBush br pts ns).Coords (2 * p) - point.1 + radius by
            linarith)]
    · subst h1
      apply hpush
      right
      refine ⟨by omega, ?_⟩
      by_contra hgt
      push_neg at hgt
      nlinarith [mul_self_nonneg (getC (NewBush br pts ns).Coords (2 * p) - point.1),
        mul_pos
          (show (0:ℚ) < getC (NewBush br pts ns).Coords (2 * p + 1) - point.2 - radius by
            linarith)
          (show (0:ℚ) < getC (NewBush br pts ns).Coords (2 * p + 1) - point.2 + radius by
            linarith)]
  have hkd' : kdOrdered (bushStore (NewBush br pts ns)) (NewBush br pts ns).NodeSize
      0 (((NewBush br pts ns).Idxs.size : Int) - 1) 0 = true := by
    rw [NewBush_NodeSize, hsz]
    exact hkd
  have h2 := travGo_perm (NewBush br pts ns)
    (circP (NewBush br pts ns) point.1 point.2 (radius * radius))
    (withinPushL (NewBush br pts ns) point.1 point.2 radius)
    (withinPushR (NewBush br pts ns) point.1 point.2 radius)
    hL hR hns0 ((((NewBush br pts ns).Idxs.size : Int) - 1) + 1 - 0).toNat
    0 (((NewBush br pts ns).Idxs.size : Int) - 1) 0 (le_refl _) (Or.inl rfl) hkd'
  have h3 : ((posList 0 (((NewBush br pts ns).Idxs.size : Int) - 1)).filter
        fun x => decide (circP (NewBush br pts ns) point.1 point.2 (radius * radius) x)).map
          (fun x => getN (NewBush br pts ns).Idxs x) =
      ((NewBush br pts ns).Idxs.toList).filter fun i =>
        decide (sqrtDist (pts.getD i (0, 0)).1 (pts.getD i (0, 0)).2 point.1 point.2 ≤
          radius * radius) := by
    rw [map_filter_comm _ _ _ _ ?hcong, hsz, posList_map_getN _ _ hsz]
    case hcong =>
      intro x hx
      rw [mem_posList] at hx
      have hxn : x = ((x.toNat : Nat) : Int) := by omega
      have hxlt : x.toNat < pts.length := by
        rw [hsz] at hx; omega
      obtain ⟨hi, hcx, hcy⟩ := hpair x.toNat hxlt
      apply decide_eq_decide.mpr
      simp only [circP]
      rw [hxn, hcx, hcy]
  have h4 : bruteWithin pts point.1 point.2 radius =
      (List.range pts.length).filter fun i =>
        decide (sqrtDist (pts.getD i (0, 0)).1 (pts.getD i (0, 0)).2 point.1 point.2 ≤
          radius * radius) := rfl
  rw [h1, h4]
  exact (h2.trans (by rw [h3])).trans (hperm.filter _)

theorem posList_getElem (r : Int) :
    ∀ N : Nat, ∀ l : Int, (r + 1 - l).toNat ≤ N →
    ∀ i : Nat, ∀ h : i < (posList l r).length, (posList l r).get ⟨i, h⟩ = l + i := by
  intro N
  induction N with
  | zero =>
    intro l hN i h
    rw [posList_length] at h
    omega
  | succ N ih =>
    intro l hN i h
    by_cases hlr : l ≤ r
    · have e : posList l r = l :: posList (l + 1) r := by rw [posList, if_pos hlr]
      cases i with
      | zero =>
        simp only [List.get_eq_getElem]
        simp only [e, List.getElem_cons_zero]
        omega
      | succ i =>
        simp only [List.get_eq_getElem]
        simp only [e, List.getElem_cons_succ]
        have h' : i < (posList (l + 1) r).length := by
          rw [posList_length] at h ⊢
          omega
        have := ih (l + 1) (by omega) i h'
        simp only [List.get_eq_getElem] at this
        rw [this]
        omega
    · exfalso
      rw [posList_length] at h
      omega

/-- The middle segment itself is permuted: two stores with permuted record
lists that agree outside `[l, r]` have permuted `[l, r]` segments. -/
theorem seg_perm (s s' : Store) (l r : Int)
    (hn : s'.Idxs.size = s.Idxs.size)
    (hperm : (entriesList s').Perm (entriesList s))
    (hframe : ∀ p : Int, 0 ≤ p → p < (s.Idxs.size : Int) → (p < l ∨ r < p) →
      entryAt s' p = entryAt s p) :
    (((entriesList s').drop l.toNat).take
        (min (r + 1).toNat s.Idxs.size - l.toNat)).Perm
      (((entriesList s).drop l.toNat).take
        (min (r + 1).toNat s.Idxs.size - l.toNat)) := by
  set n := s.Idxs.size with hdefn
  set Ln : Nat := l.toNat with hdefLn
  set Rn : Nat := min (r + 1).toNat n with hdefRn
  have hRn_le : Rn ≤ n := by omega
  have len' : (entriesList s').length = n := by rw [entriesList_length, hn]
  have len : (entriesList s).length = n := entriesList_length s
  by_cases hLR : Ln ≤ Rn
  case neg =>
    rw [show Rn - Ln = 0 by omega]
    simp
  case pos =>
  have dec3 : ∀ L : List (Nat × ℚ × ℚ),
      L = L.take Ln ++ ((L.drop Ln).take (Rn - Ln) ++ L.drop Rn) := by
    intro L
    have h1 := List.take_append_drop Ln L
    have h2 := List.take_append_drop (Rn - Ln) (L.drop Ln)
    rw [List.drop_drop, show Ln + (Rn - Ln) = Rn by omega] at h2
    rw [← h2] at h1
    exact h1.symm
  have dec' := dec3 (entriesList s')
  have dec := dec3 (entriesList s)
  have htake : (entriesList s').take Ln = (entriesList s).take Ln := by
    apply List.ext_getElem
    · rw [List.length_take, List.length_take, len, len']
    · intro q h1 h2
      rw [List.getElem_take, List.getElem_take]
      have hq : q < n := by rw [List.length_take, len'] at h1; omega
      rw [entriesList_getElem _ _ (by omega), entriesList_getElem _ _ (by omega)]
      apply hframe
      · omega
      · omega
      · left
        rw [List.length_take, len'] at h1
        omega
  have hdrop : (entriesList s').drop Rn = (entriesList s).drop Rn := by
    apply List.ext_getElem
    · rw [List.length_drop, List.length_drop, len, len']
    · intro q h1 h2
      rw [List.getElem_drop, List.getElem_drop]
      have hq : Rn + q < n := by rw [List.length_drop, len'] at h1; omega
      rw [entriesList_getElem _ _ (by omega), entriesList_getElem _ _ (by omega)]
      apply hframe
      · omega
      · omega
      · right
        omega
  have h1 : ((entriesList s').take Ln ++ (((entriesList s').drop Ln).take (Rn - Ln) ++
      (entriesList s').drop Rn)).Perm
      ((entriesList s).take Ln ++ (((entriesList s).drop Ln).take (Rn - Ln) ++
      (entriesList s).drop Rn)) := by
    rw [← dec', ← dec]; exact hperm
  rw [htake, hdrop] at h1
  have h2 := (List.perm_append_left_iff _).mp h1
  have h3 : ∀ (u v w : List (Nat × ℚ × ℚ)), (u ++ w).Perm (v ++ w) → u.Perm v := by
    intro u v w huvw
    have hm : (↑(u ++ w) : Multiset (Nat × ℚ × ℚ)) = ↑(v ++ w) := by
      exact Multiset.coe_eq_coe.2 huvw
    simp only [← Multiset.coe_add] at hm
    exact Multiset.coe_eq_coe.1 (add_right_cancel hm)
  exact h3 _ _ _ h2

/-- The axis-value list of the `[l, r]` segment, read off the record list. -/
theorem segVals_eq (s : Store) (l r inc : Int) (hinc : inc = 0 ∨ inc = 1)
    (hl : 0 ≤ l) (hr : r < (s.Idxs.size : Int)) :
    (((entriesList s).drop l.toNat).take
        (min (r + 1).toNat s.Idxs.size - l.toNat)).map
      (fun e => if inc = 0 then e.2.1 else e.2.2) =
    (posList l r).map (fun p => getC s.Coords (2 * p + inc)) := by
  have len : (entriesList s).length = s.Idxs.size := entriesList_length s
  apply List.ext_getElem
  · simp only [List.length_map, List.length_take, List.length_drop, len, posList_length]
    omega
  · intro i h1 h2
    simp only [List.length_map, List.length_take, List.length_drop, len] at h1
    rw [List.getElem_map, List.getElem_take, List.getElem_drop, List.getElem_map]
    have hb : l.toNat + i < (entriesList s).length := by rw [len]; omega
    rw [entriesList_getElem s (l.toNat + i) hb]
    have h2' : i < (posList l r).length := by
      rwa [List.length_map] at h2
    have hp := posList_getElem r (r + 1 - l).toNat l (le_refl _) i h2'
    simp only [List.get_eq_getElem] at hp
    rw [hp]
    simp only [entryAt]
    rcases hinc with h0 | hone
    · subst h0
      rw [show (2 : Int) * ((l.toNat + i : Nat) : Int) = 2 * (l + (i : Int)) + 0 from by
        push_cast; omega]
      simp
    · subst hone
      rw [show (2 : Int) * ((l.toNat + i : Nat) : Int) + 1 = 2 * (l + (i : Int)) + 1 from by
        push_cast; omega]
      simp

/-- C1: for every point set, every sampling bracket, every `nodeSize ≥ 1`
and every box `(minX, minY, maxX, maxY)`, `Range` on the index built by
`NewBush` returns exactly the brute-force linear-scan result
`{i : minX ≤ x_i ≤ maxX ∧ minY ≤ y_i ≤ maxY}` (inclusive both ends): the
result list is a permutation of it, i.e. the same multiset of original
indices, independent of `nodeSize`. -/
theorem claim_C1 (br : Int → Int → Int → Int × Int) (pts : List Point) (ns : Int)
    (minX minY maxX maxY : ℚ) (hns : 1 ≤ ns) :
    ((NewBush br pts ns).Range minX minY maxX maxY).Perm
      (bruteRange pts minX minY maxX maxY) :=
  Range_perm br pts ns minX minY maxX maxY (by omega)

theorem claim_C1_witness : (1 : Int) ≤ 2 ∧
    ((NewBush brTriv [((0:ℚ), (0:ℚ)), ((2:ℚ), (2:ℚ)), ((4:ℚ), (4:ℚ))] 2).Range
        1 1 3 3).Perm
      (bruteRange [((0:ℚ), (0:ℚ)), ((2:ℚ), (2:ℚ)), ((4:ℚ), (4:ℚ))] 1 1 3 3) :=
  ⟨by decide, claim_C1 brTriv [((0:ℚ), (0:ℚ)), ((2:ℚ), (2:ℚ)), ((4:ℚ), (4:ℚ))] 2
    1 1 3 3 (by decide)⟩

/-- C2: for every point set, every sampling bracket, every `nodeSize ≥ 1`,
every query point and every radius `≥ 0`, `Within` on the index built by
`NewBush` returns exactly the brute-force squared-distance scan
`{i : (x_i − qx)² + (y_i − qy)² ≤ radius²}` (inclusive: points exactly
`radius` away are included): the result list is a permutation of it. -/
theorem claim_C2 (br : Int → Int → Int → Int × Int) (pts : List Point) (ns : Int)
    (point : Point) (radius : ℚ) (hns : 1 ≤ ns) (hrad : 0 ≤ radius) :
    ((NewBush br pts ns).Within point radius).Perm
      (bruteWithin pts point.1 point.2 radius) :=
  Within_perm br pts ns point radius (by omega) hrad

theorem claim_C2_witness : (1 : Int) ≤ 2 ∧ (0 : ℚ) ≤ 2 ∧
    ((NewBush brTriv [((0:ℚ), (0:ℚ)), ((2:ℚ), (2:ℚ)), ((4:ℚ), (4:ℚ))] 2).Within
        ((2:ℚ), (2:ℚ)) 2).Perm
      (bruteWithin [((0:ℚ), (0:ℚ)), ((2:ℚ), (2:ℚ)), ((4:ℚ), (4:ℚ))] 2 2 2) :=
  ⟨by decide, by decide,
    claim_C2 brTriv [((0:ℚ), (0:ℚ)), ((2:ℚ), (2:ℚ)), ((4:ℚ), (4:ℚ))] 2
      ((2:ℚ), (2:ℚ)) 2 (by decide) (by decide)⟩

/-- C3: after `NewBush(points, nodeSize)` with `nodeSize ≥ 1` the built
arrays satisfy the k-d partial order `kdOrdered`: recursively over ranges
`[left, right]` from `[0, n−1]` with the axis alternating per level,
ranges of length `≤ nodeSize` are unordered leaves, and otherwise with
`m = ⌊(left+right)/2⌋` everything in `[left, m−1]` has axis coordinate `≤`
the one at `m`, everything in `[m+1, right]` has axis coordinate `≥` it,
and both halves satisfy the invariant with the axis flipped. -/
theorem claim_C3 (br : Int → Int → Int → Int × Int) (pts : List Point) (ns : Int)
    (hns : 1 ≤ ns) :
    kdOrdered (bushStore (NewBush br pts ns)) ns 0 ((pts.length : Int) - 1) 0 = true :=
  (NewBush_main br pts ns).2.2.2.2

theorem claim_C3_witness : (1 : Int) ≤ 2 ∧
    kdOrdered (bushStore (NewBush brTriv
        [((3:ℚ), (1:ℚ)), ((1:ℚ), (5:ℚ)), ((7:ℚ), (2:ℚ)), ((5:ℚ), (0:ℚ)),
          ((2:ℚ), (9:ℚ))] 2)) 2 0
      (((List.length [((3:ℚ), (1:ℚ)), ((1:ℚ), (5:ℚ)), ((7:ℚ), (2:ℚ)), ((5:ℚ), (0:ℚ)),
          ((2:ℚ), (9:ℚ))] : Nat) : Int) - 1) 0 = true :=
  ⟨by decide, claim_C3 brTriv
    [((3:ℚ), (1:ℚ)), ((1:ℚ), (5:ℚ)), ((7:ℚ), (2:ℚ)), ((5:ℚ), (0:ℚ)), ((2:ℚ), (9:ℚ))]
    2 (by decide)⟩

/-- C4: after `NewBush(points, nodeSize)` with `nodeSize ≥ 1` on `n`
points, `Idxs` has length `n` and is a permutation of `0..n−1`, and the
pairing invariant holds: for every position `p`, `Coords[2p]` and
`Coords[2p+1]` are the original coordinates of the point whose original
position is `Idxs[p]`. -/
theorem claim_C4 (br : Int → Int → Int → Int × Int) (pts : List Point) (ns : Int)
    (hns : 1 ≤ ns) :
    (NewBush br pts ns).Idxs.size = pts.length ∧
    ((NewBush br pts ns).Idxs.toList).Perm (List.range pts.length) ∧
    (∀ p : Nat, p < pts.length →
      getC (NewBush br pts ns).Coords (2 * (p : Int)) =
        (pts.getD (getN (NewBush br pts ns).Idxs (p : Int)) (0, 0)).1 ∧
      getC (NewBush br pts ns).Coords (2 * (p : Int) + 1) =
        (pts.getD (getN (NewBush br pts ns).Idxs (p : Int)) (0, 0)).2) := by
  obtain ⟨h1, h2, h3, h4, h5⟩ := NewBush_main br pts ns
  exact ⟨h1, h3, fun p hp => ⟨(h4 p hp).2.1, (h4 p hp).2.2⟩⟩

theorem claim_C4_witness : (1 : Int) ≤ 2 ∧
    ((NewBush brTriv [((3:ℚ), (1:ℚ)), ((1:ℚ), (5:ℚ)), ((7:ℚ), (2:ℚ))] 2).Idxs.size =
      List.length [((3:ℚ), (1:ℚ)), ((1:ℚ), (5:ℚ)), ((7:ℚ), (2:ℚ))] ∧
    ((NewBush brTriv [((3:ℚ), (1:ℚ)), ((1:ℚ), (5:ℚ)), ((7:ℚ), (2:ℚ))] 2).Idxs.toList).Perm
      (List.range (List.length [((3:ℚ), (1:ℚ)), ((1:ℚ), (5:ℚ)), ((7:ℚ), (2:ℚ))])) ∧
    (∀ p : Nat, p < List.length [((3:ℚ), (1:ℚ)), ((1:ℚ), (5:ℚ)), ((7:ℚ), (2:ℚ))] →
      getC (NewBush brTriv [((3:ℚ), (1:ℚ)), ((1:ℚ), (5:ℚ)), ((7:ℚ), (2:ℚ))] 2).Coords
          (2 * (p : Int)) =
        ([((3:ℚ), (1:ℚ)), ((1:ℚ), (5:ℚ)), ((7:ℚ), (2:ℚ))].getD
          (getN (NewBush brTriv [((3:ℚ), (1:ℚ)), ((1:ℚ), (5:ℚ)), ((7:ℚ), (2:ℚ))] 2).Idxs
            (p : Int)) (0, 0)).1 ∧
      getC (NewBush brTriv [((3:ℚ), (1:ℚ)), ((1:ℚ), (5:ℚ)), ((7:ℚ), (2:ℚ))] 2).Coords
          (2 * (p : Int) + 1) =
        ([((3:ℚ), (1:ℚ)), ((1:ℚ), (5:ℚ)), ((7:ℚ), (2:ℚ))].getD
          (getN (NewBush brTriv [((3:ℚ), (1:ℚ)), ((1:ℚ), (5:ℚ)), ((7:ℚ), (2:ℚ))] 2).Idxs
            (p : Int)) (0, 0)).2)) :=
  ⟨by decide, claim_C4 brTriv [((3:ℚ), (1:ℚ)), ((1:ℚ), (5:ℚ)), ((7:ℚ), (2:ℚ))] 2
    (by decide)⟩

/-- C6 (code bug): nothing rejects or clamps `nodeSize ≤ 0` — `NewBush`
and `buildIndex` pass it to the recursive `sort` unchanged.  With
`nodeSize = -2` and two points the root `sort` call is on range `[0, 1]`:
the guard `right - left ≤ nodeSize` does not stop it and it spawns the
child range `[0, -1]`; on `[0, -1]` the guard again does not stop and the
children include `[0, -1]` itself, so the source recursion re-enters the
same call forever and never terminates. -/
theorem claim_C6 :
    (∀ br pts ns, (NewBush br pts ns).NodeSize = ns) ∧
    ¬ sortStops (-2) 0 1 ∧ (0, -1) ∈ sortChildren 0 1 ∧
    ¬ sortStops (-2) 0 (-1) ∧ (0, -1) ∈ sortChildren 0 (-1) :=
  ⟨fun br pts ns => rfl, by decide, by decide, by decide, by decide⟩

/-- C8 (corrected): the index DOES retain the caller's point sequence.
`buildIndex` executes `bush.Points = points` (line 160), so after
`NewBush` returns, the struct's `Points` field is the original slice — not
merely the extracted coordinates, `Idxs` and `NodeSize`. -/
theorem claim_C8 (br : Int → Int → Int → Int × Int) (pts : List Point) (ns : Int) :
    (NewBush br pts ns).Points = pts := rfl

theorem claim_C8_counterexample :
    (NewBush brTriv [((0:ℚ), (0:ℚ))] 64).Points ≠ [] := by decide

/-- C10: for every index built with `nodeSize ≥ 1` and every inverted box
(`minX > maxX` or `minY > maxY`), `Range` returns exactly the empty list:
no point can pass the inclusive membership test on an inverted axis. -/
theorem claim_C10 (br : Int → Int → Int → Int × Int) (pts : List Point) (ns : Int)
    (minX minY maxX maxY : ℚ) (hns : 1 ≤ ns) (hbox : maxX < minX ∨ maxY < minY) :
    (NewBush br pts ns).Range minX minY maxX maxY = [] := by
  have h := Range_perm br pts ns minX minY maxX maxY (by omega)
  have hb : bruteRange pts minX minY maxX maxY = [] := by
    apply List.filter_eq_nil_iff.mpr
    intro i hi
    simp only [decide_eq_true_eq]
    rintro ⟨h1, h2, h3, h4⟩
    rcases hbox with hx | hy
    · exact absurd (le_trans h1 h2) (by push_neg; linarith)
    · exact absurd (le_trans h3 h4) (by push_neg; linarith)
  rw [hb] at h
  exact Eq.symm (List.Perm.nil_eq h.symm)

theorem claim_C10_witness : (1 : Int) ≤ 2 ∧ ((1:ℚ) < 3 ∨ (2:ℚ) < 2) ∧
    (NewBush brTriv [((0:ℚ), (0:ℚ)), ((2:ℚ), (2:ℚ))] 2).Range 3 0 1 5 = [] :=
  ⟨by decide, Or.inl (by decide),
    claim_C10 brTriv [((0:ℚ), (0:ℚ)), ((2:ℚ), (2:ℚ))] 2 3 0 1 5 (by decide)
      (Or.inl (by decide))⟩

/-- On a tree that is a single leaf (`n − 1 ≤ nodeSize`), `Within` is the
brute-force squared-radius scan for EVERY radius, negative ones included:
the stack loop runs the leaf scan once, which compares squared distances
against `radius * radius`. -/
theorem leafWithin_eq (br : Int → Int → Int → Int × Int) (pts : List Point) (ns : Int)
    (point : Point) (radius : ℚ) (hleaf : (pts.length : Int) - 1 ≤ ns) :
    (NewBush br pts ns).Within point radius =
      bruteWithin pts point.1 point.2 radius := by
  have hstore : bushStore (NewBush br pts ns) = ⟨initIdxs pts, initCoords pts⟩ := by
    rw [NewBush_store, sort, if_pos (by omega)]
  have hIdxs : (NewBush br pts ns).Idxs = initIdxs pts := congrArg Store.Idxs hstore
  have hCoords : (NewBush br pts ns).Coords = initCoords pts :=
    congrArg Store.Coords hstore
  have hsz : (NewBush br pts ns).Idxs.size = pts.length := by rw [hIdxs, initIdxs_size]
  rw [KDBush.Within, hsz]
  simp only [withinLoop]
  rw [if_pos (show ((pts.length : Nat) : Int) - 1 - 0 ≤ (NewBush br pts ns).NodeSize from by
    rw [NewBush_NodeSize]; omega)]
  rw [withinScan_eq (NewBush br pts ns) point.1 point.2 (radius * radius)
    (((pts.length : Int) - 1) + 1 - 0).toNat 0 ((pts.length : Int) - 1) (le_refl _),
    List.nil_append]
  rw [map_filter_comm _ _ (fun i => decide (sqrtDist (pts.getD i (0, 0)).1
      (pts.getD i (0, 0)).2 point.1 point.2 ≤ radius * radius)) _ ?hcong]
  case hcong =>
    intro x hx
    rw [mem_posList] at hx
    have hxn : x = ((x.toNat : Nat) : Int) := by omega
    have hxlt : x.toNat < pts.length := by omega
    have hent := entryAt_init pts x.toNat hxlt
    have hgx : getC (initCoords pts) (2 * ((x.toNat : Nat) : Int)) =
        (pts.getD x.toNat (0, 0)).1 := by
      have h := congrArg (fun e => e.2.1) hent
      simpa [entryAt] using h
    have hgy : getC (initCoords pts) (2 * ((x.toNat : Nat) : Int) + 1) =
        (pts.getD x.toNat (0, 0)).2 := by
      have h := congrArg (fun e => e.2.2) hent
      simpa [entryAt] using h
    have hgn : getN (initIdxs pts) ((x.toNat : Nat) : Int) = x.toNat := by
      have h := congrArg (fun e => e.1) hent
      simpa [entryAt] using h
    apply decide_eq_decide.mpr
    simp only [circP]
    rw [hCoords, hIdxs, hxn, hgx, hgy, hgn]
  rw [hIdxs, posList_map_getN (initIdxs pts) pts.length (initIdxs_size pts)]
  simp only [initIdxs, Array.toList_range]
  rfl

/-- C7 (corrected): a negative radius is NOT treated as zero matches.
`Within` squares the radius (`r2 := radius * radius`), so the membership
test is sign-blind; on a single-leaf tree `Within` equals the brute-force
squared-radius scan for every radius, and a point at distance
`≤ |radius|` is returned even when `radius < 0` (see the counterexample). -/
theorem claim_C7 (br : Int → Int → Int → Int × Int) (pts : List Point) (ns : Int)
    (point : Point) (radius : ℚ) (hleaf : (pts.length : Int) - 1 ≤ ns) :
    (NewBush br pts ns).Within point radius =
      bruteWithin pts point.1 point.2 radius :=
  leafWithin_eq br pts ns point radius hleaf

theorem claim_C7_witness :
    ((List.length [(((0:ℚ), (0:ℚ)) : Point)] : Nat) : Int) - 1 ≤ 64 ∧
    (NewBush brTriv [((0:ℚ), (0:ℚ))] 64).Within ((0:ℚ), (0:ℚ)) (-1) =
      bruteWithin [((0:ℚ), (0:ℚ))] 0 0 (-1) :=
  ⟨by decide, claim_C7 brTriv [((0:ℚ), (0:ℚ))] 64 ((0:ℚ), (0:ℚ)) (-1) (by decide)⟩

theorem claim_C7_counterexample :
    (NewBush brTriv [((0:ℚ), (0:ℚ))] 64).Within ((0:ℚ), (0:ℚ)) (-1) ≠ [] := by
  rw [leafWithin_eq brTriv [((0:ℚ), (0:ℚ))] 64 ((0:ℚ), (0:ℚ)) (-1) (by decide)]
  apply List.ne_nil_of_mem (a := 0)
  unfold bruteWithin
  rw [List.mem_filter]
  constructor
  · decide
  · norm_num [sqrtDist]

/-- C9: `NewBush` on the empty point sequence (any `nodeSize ≥ 1`) yields
an index with empty `Idxs` and `Coords`, on which `Range` (every box) and
`Within` (every query point and every radius) return the empty result. -/
theorem claim_C9 (br : Int → Int → Int → Int × Int) (ns : Int)
    (minX minY maxX maxY : ℚ) (point : Point) (radius : ℚ) (hns : 1 ≤ ns) :
    (NewBush br [] ns).Idxs.size = 0 ∧
    (NewBush br [] ns).Coords.size = 0 ∧
    (NewBush br [] ns).Range minX minY maxX maxY = [] ∧
    (NewBush br [] ns).Within point radius = [] := by
  obtain ⟨h1, h2, h3, h4, h5⟩ := NewBush_main br [] ns
  simp only [List.length_nil, mul_zero] at h1 h2
  refine ⟨h1, h2, ?_, ?_⟩
  · rw [KDBush.Range, h1]
    simp only [rangeLoop]
    rw [if_pos (show ((0 : Nat) : Int) - 1 - 0 ≤ (NewBush br [] ns).NodeSize from by
      rw [NewBush_NodeSize]; omega)]
    rw [rangeScan, if_neg (by omega)]
    rfl
  · rw [KDBush.Within, h1]
    simp only [withinLoop]
    rw [if_pos (show ((0 : Nat) : Int) - 1 - 0 ≤ (NewBush br [] ns).NodeSize from by
      rw [NewBush_NodeSize]; omega)]
    rw [withinScan, if_neg (by omega)]
    rfl

theorem claim_C9_witness : (1 : Int) ≤ 2 ∧
    ((NewBush brTriv [] 2).Idxs.size = 0 ∧
    (NewBush brTriv [] 2).Coords.size = 0 ∧
    (NewBush brTriv [] 2).Range 0 0 1 1 = [] ∧
    (NewBush brTriv [] 2).Within ((0:ℚ), (0:ℚ)) (-1) = []) :=
  ⟨by decide, claim_C9 brTriv 2 0 0 1 1 ((0:ℚ), (0:ℚ)) (-1) (by decide)⟩

/-- C5: for lockstep arrays (`WFS`), an axis `inc ∈ {0,1}` and bounds
`0 ≤ left ≤ k ≤ right < len(Idxs)`, `sselect` terminates (the flag that
would record a non-shrinking narrowing step stays `false`), rearranges
only the records of `[left, right]` — entries outside are untouched and
the record list as a whole is permuted, so `Idxs`/`Coords` move in
lockstep — and partitions the range: everything left of `k` is `≤` the
value ending at `k`, everything right of `k` is `≥` it, and that value is
the true rank-`(k−left)` axis value of the input range (entry `k−left` of
the sorted input segment values, ties landing on either side). -/
theorem claim_C5 (br : Int → Int → Int → Int × Int) (s : Store) (k left right inc : Int)
    (hinc : inc = 0 ∨ inc = 1) (hWF : WFS s)
    (hl : 0 ≤ left) (hlk : left ≤ k) (hkr : k ≤ right)
    (hr : right < (s.Idxs.size : Int)) :
    (sselect br s k left right inc).2 = false ∧
    WFS (sselect br s k left right inc).1 ∧
    (sselect br s k left right inc).1.Idxs.size = s.Idxs.size ∧
    (∀ p : Int, p < left ∨ right < p →
      entryAt (sselect br s k left right inc).1 p = entryAt s p) ∧
    (entriesList (sselect br s k left right inc).1).Perm (entriesList s) ∧
    (∀ p : Int, left ≤ p → p < k →
      getC (sselect br s k left right inc).1.Coords (2 * p + inc) ≤
        getC (sselect br s k left right inc).1.Coords (2 * k + inc)) ∧
    (∀ p : Int, k < p → p ≤ right →
      getC (sselect br s k left right inc).1.Coords (2 * k + inc) ≤
        getC (sselect br s k left right inc).1.Coords (2 * p + inc)) ∧
    getC (sselect br s k left right inc).1.Coords (2 * k + inc) =
      (((posList left right).map fun p => getC s.Coords (2 * p + inc)).insertionSort
        (· ≤ ·)).getD (k - left).toNat 0 := by
  obtain ⟨hflag, hWF', hsz', hframe, hperm, hpart⟩ :=
    sselect_main br inc s.Idxs.size hinc (right - left).toNat s k left right (le_refl _)
      hWF rfl hl hr (by omega) (by omega)
  obtain ⟨hlo, hhi⟩ := hpart hlk hkr
  have hframe' : ∀ p : Int, p < left ∨ right < p →
      entryAt (sselect br s k left right inc).1 p = entryAt s p := by
    intro p hp
    exact hframe p hp (by omega)
  refine ⟨hflag, hWF', hsz', hframe', hperm, hlo, hhi, ?_⟩
  have hvals : ((posList left right).map fun p =>
      getC (sselect br s k left right inc).1.Coords (2 * p + inc)).Perm
      ((posList left right).map fun p => getC s.Coords (2 * p + inc)) := by
    have hmid := seg_perm s (sselect br s k left right inc).1 left right hsz' hperm
      (fun p h1 h2 h3 => hframe' p h3)
    have hmap := hmid.map (fun e => if inc = 0 then e.2.1 else e.2.2)
    rw [segVals_eq s left right inc hinc hl hr] at hmap
    have h2 := segVals_eq (sselect br s k left right inc).1 left right inc hinc hl
      (by rw [hsz']; exact hr)
    rw [hsz'] at h2
    rw [h2] at hmap
    exact hmap
  have hsplit := posList_split left right k hlk hkr
  have hVeq : (posList left right).map
      (fun p => getC (sselect br s k left right inc).1.Coords (2 * p + inc)) =
      ((posList left (k - 1)).map
        (fun p => getC (sselect br s k left right inc).1.Coords (2 * p + inc))) ++
      getC (sselect br s k left right inc).1.Coords (2 * k + inc) ::
      ((posList (k + 1) right).map
        (fun p => getC (sselect br s k left right inc).1.Coords (2 * p + inc))) := by
    rw [hsplit, List.map_append, List.map_cons]
  have hAle : ∀ a ∈ (posList left (k - 1)).map
      (fun p => getC (sselect br s k left right inc).1.Coords (2 * p + inc)),
      a ≤ getC (sselect br s k left right inc).1.Coords (2 * k + inc) := by
    intro a ha
    rw [List.mem_map] at ha
    obtain ⟨p, hp, he⟩ := ha
    rw [mem_posList] at hp
    rw [← he]
    exact hlo p hp.1 (by omega)
  have hBge : ∀ b ∈ (posList (k + 1) right).map
      (fun p => getC (sselect br s k left right inc).1.Coords (2 * p + inc)),
      getC (sselect br s k left right inc).1.Coords (2 * k + inc) ≤ b := by
    intro b hb
    rw [List.mem_map] at hb
    obtain ⟨p, hp, he⟩ := hb
    rw [mem_posList] at hp
    rw [← he]
    exact hhi p (by omega) hp.2
  have hsorted : ((((posList left (k - 1)).map
      (fun p => getC (sselect br s k left right inc).1.Coords
        (2 * p + inc))).insertionSort (· ≤ ·)) ++
      getC (sselect br s k left right inc).1.Coords (2 * k + inc) ::
      (((posList (k + 1) right).map
        (fun p => getC (sselect br s k left right inc).1.Coords
          (2 * p + inc))).insertionSort (· ≤ ·))).Sorted (· ≤ ·) := by
    refine List.pairwise_append.mpr ⟨List.sorted_insertionSort _ _, ?_, ?_⟩
    · rw [List.pairwise_cons]
      refine ⟨?_, List.sorted_insertionSort _ _⟩
      intro b hb
      exact hBge b ((List.perm_insertionSort _ _).mem_iff.mp hb)
    · intro x hx y hy
      have hx' := hAle x ((List.perm_insertionSort _ _).mem_iff.mp hx)
      rcases List.mem_cons.mp hy with he | hy'
      · rw [he]
        exact hx'
      · exact le_trans hx' (hBge y ((List.perm_insertionSort _ _).mem_iff.mp hy'))
  have hperm2 : ((((posList left (k - 1)).map
      (fun p => getC (sselect br s k left right inc).1.Coords
        (2 * p + inc))).insertionSort (· ≤ ·)) ++
      getC (sselect br s k left right inc).1.Coords (2 * k + inc) ::
      (((posList (k + 1) right).map
        (fun p => getC (sselect br s k left right inc).1.Coords
          (2 * p + inc))).insertionSort (· ≤ ·))).Perm
      ((posList left right).map
        (fun p => getC (sselect br s k left right inc).1.Coords (2 * p + inc))) := by
    rw [hVeq]
    exact (List.perm_insertionSort _ _).append ((List.perm_insertionSort _ _).cons _)
  have hS : ((posList left right).map fun p =>
      getC s.Coords (2 * p + inc)).insertionSort (· ≤ ·) =
      ((((posList left (k - 1)).map
        (fun p => getC (sselect br s k left right inc).1.Coords
          (2 * p + inc))).insertionSort (· ≤ ·)) ++
      getC (sselect br s k left right inc).1.Coords (2 * k + inc) ::
      (((posList (k + 1) right).map
        (fun p => getC (sselect br s k left right inc).1.Coords
          (2 * p + inc))).insertionSort (· ≤ ·))) := by
    exact List.eq_of_perm_of_sorted
      ((List.perm_insertionSort _ _).trans (hvals.symm.trans hperm2.symm))
      (List.sorted_insertionSort _ _) hsorted
  rw [hS]
  have hlenA : ((((posList left (k - 1)).map
      (fun p => getC (sselect br s k left right inc).1.Coords
        (2 * p + inc))).insertionSort (· ≤ ·))).length = (k - left).toNat := by
    rw [(List.perm_insertionSort _ _).length_eq, List.length_map, posList_length]
    omega
  rw [List.getD_eq_getElem?_getD, ← hlenA,
    List.getElem?_append_right (le_refl _), Nat.sub_self]
  simp

/-- A concrete two-record store used to exercise the `sselect` contract. -/
def wstore : Store := ⟨#[0, 1], #[(3:ℚ), 0, (1:ℚ), 0]⟩

theorem claim_C5_witness :
    (((0:Int) = 0 ∨ (0:Int) = 1) ∧ WFS wstore ∧ (0:Int) ≤ 0 ∧ (0:Int) ≤ 0 ∧
      (0:Int) ≤ 1 ∧ (1:Int) < (wstore.Idxs.size : Int)) ∧
    ((sselect brTriv wstore 0 0 1 0).2 = false ∧
    WFS (sselect brTriv wstore 0 0 1 0).1 ∧
    (sselect brTriv wstore 0 0 1 0).1.Idxs.size = wstore.Idxs.size ∧
    (∀ p : Int, p < 0 ∨ 1 < p →
      entryAt (sselect brTriv wstore 0 0 1 0).1 p = entryAt wstore p) ∧
    (entriesList (sselect brTriv wstore 0 0 1 0).1).Perm (entriesList wstore) ∧
    (∀ p : Int, 0 ≤ p → p < 0 →
      getC (sselect brTriv wstore 0 0 1 0).1.Coords (2 * p + 0) ≤
        getC (sselect brTriv wstore 0 0 1 0).1.Coords (2 * 0 + 0)) ∧
    (∀ p : Int, 0 < p → p ≤ 1 →
      getC (sselect brTriv wstore 0 0 1 0).1.Coords (2 * 0 + 0) ≤
        getC (sselect brTriv wstore 0 0 1 0).1.Coords (2 * p + 0)) ∧
    getC (sselect brTriv wstore 0 0 1 0).1.Coords (2 * 0 + 0) =
      (((posList 0 1).map fun p => getC wstore.Coords (2 * p + 0)).insertionSort
        (· ≤ ·)).getD ((0:Int) - 0).toNat 0) :=
  ⟨⟨Or.inl rfl, by unfold WFS; decide, by decide, by decide, by decide, by decide⟩,
    claim_C5 brTriv wstore 0 0 1 0 (Or.inl rfl) (by unfold WFS; decide) (by decide)
      (by decide) (by decide) (by decide)⟩
